import Mathlib

/-!
FileSynchronizer: a shallow embedding of `src/mainwindow.cpp`.

The synchronisation engine of `MainWindow` is embedded as pure functions over an
explicit state: the filesystem, the `lastModifiedTimes` hash, the log text box,
and a record of the calls and filesystem operations the code performs.

Modelling choices for the Qt library (the repository's own code is translated
statement by statement):

* a path is the list of its components from the root;
* the filesystem is a finite association list from paths to nodes;
* `QDateTime` is a number of milliseconds, `QTime` a number of milliseconds
  since midnight (`0 .. 86399999`);
* whether the operating system lets `mkpath`, `remove` and `copy` succeed is
  given by an environment `Env`; each operation can in addition fail for a
  reason visible in the filesystem (a regular file in the way, a missing
  source, an existing target);
* `QDir::entryList` lists entries in the order of the store (Qt sorts by name;
  no property below depends on the order) and leaves hidden entries out, since
  the code does not pass `QDir::Hidden`; there are no symbolic links.
-/

namespace FileSync

/-! ## Paths and the filesystem -/

/-- An absolute path, as the list of its components from the root. -/
abbrev Path := List String

/-- A filesystem node: a regular file with modification time and bytes, or a directory. -/
inductive Node where
  | file (mtime : Int) (bytes : List Nat)
  | dir
  deriving DecidableEq, Repr

/-- The filesystem: a finite map from paths to nodes (first binding wins). -/
abbrev FS := List (Path × Node)

/-- The node stored at a path, if any. -/
def FS.get : FS → Path → Option Node
  | [], _ => none
  | (k, n) :: rest, p => if k = p then some n else FS.get rest p

/-- Remove the binding of a path. -/
def FS.erase (fs : FS) (p : Path) : FS :=
  fs.filter (fun e => decide (e.1 ≠ p))

/-- Bind a path to a node, replacing any earlier binding. -/
def FS.insert (fs : FS) (p : Path) (n : Node) : FS :=
  (p, n) :: FS.erase fs p

/-- The path names a regular file (`QFileInfo::isFile`). -/
def FS.isFile (fs : FS) (p : Path) : Bool :=
  match FS.get fs p with
  | some (Node.file _ _) => true
  | _ => false

/-- The path names a directory (`QFileInfo::isDir`, `QDir::exists`). -/
def FS.isDir (fs : FS) (p : Path) : Bool :=
  match FS.get fs p with
  | some Node.dir => true
  | _ => false

/-- Something exists at the path (`QFile::exists`). -/
def FS.pathExists (fs : FS) (p : Path) : Bool :=
  (FS.get fs p).isSome

/-- The modification time of the file at a path (`QFileInfo::lastModified`);
`0` stands for the invalid `QDateTime` of a path that is not a regular file. -/
def FS.lastModified (fs : FS) (p : Path) : Int :=
  match FS.get fs p with
  | some (Node.file m _) => m
  | _ => 0

/-- The name `x` when `k = d ++ [x]`, that is when `k` is an immediate child of `d`. -/
def childOf : Path → Path → Option String
  | [], [x] => some x
  | a :: d, b :: k => if a = b then childOf d k else none
  | _, _ => none

/-- The names of the regular files directly inside `d`:
`QDir::entryList(QDir::Files | QDir::NoDotAndDotDot)`. The filter `QDir::Hidden`
is not given, so hidden entries are left out. -/
def FS.entryListFiles (hidden : String → Bool) (fs : FS) (d : Path) : List String :=
  fs.filterMap (fun e =>
    match e.2 with
    | Node.file _ _ => (childOf d e.1).filter (fun x => !hidden x)
    | Node.dir => none)

/-- The names of the directories directly inside `d`:
`QDir::entryList(QDir::Dirs | QDir::NoDotAndDotDot)`, again without hidden entries. -/
def FS.entryListDirs (hidden : String → Bool) (fs : FS) (d : Path) : List String :=
  fs.filterMap (fun e =>
    match e.2 with
    | Node.dir => (childOf d e.1).filter (fun x => !hidden x)
    | Node.file _ _ => none)

/-- Add a directory at every path of the list that has no node yet. -/
def FS.addDirs (fs : FS) : List Path → FS
  | [] => fs
  | q :: qs =>
      if FS.pathExists fs q then FS.addDirs fs qs
      else FS.addDirs ((q, Node.dir) :: fs) qs

/-- The operating system's side of the filesystem operations, and the clock. -/
structure Env where
  /-- the system allows creating the directory path -/
  mkpathOk : Path → Bool
  /-- the system allows unlinking the file -/
  removeOk : Path → Bool
  /-- the system allows copying the bytes from the first path to the second -/
  copyOk : Path → Path → Bool
  /-- the modification time given to a file written now -/
  stamp : Int
  /-- the current working directory, which `QDir("")` denotes -/
  cwd : Path
  /-- the platform's hidden entries (on Unix the names that start with a dot) -/
  hidden : String → Bool

/-- The directory `p` and all its ancestors are directories afterwards
(`QDir::mkpath`). It succeeds when `p` already is a directory; otherwise it needs
the system's permission and no regular file on the way. On failure nothing changes. -/
def mkpath (env : Env) (fs : FS) (p : Path) : FS × Bool :=
  if FS.isDir fs p then (fs, true)
  else if env.mkpathOk p && (p.inits.all (fun q => !FS.isFile fs q)) then
    (FS.addDirs fs p.inits, true)
  else (fs, false)

/-- Unlink a file (`QFile::remove`): only a regular file can be removed. -/
def removeFile (env : Env) (fs : FS) (p : Path) : FS × Bool :=
  if FS.isFile fs p && env.removeOk p then (FS.erase fs p, true)
  else (fs, false)

/-- Copy the bytes of `src` to a new file `dst` (`QFile::copy`): fails when the
source is not a regular file, when something already exists at `dst`, when the
directory of `dst` is missing, or when the system refuses. -/
def copyBytes (env : Env) (fs : FS) (src dst : Path) : FS × Bool :=
  match FS.get fs src with
  | some (Node.file _ bytes) =>
      if !FS.pathExists fs dst && FS.isDir fs dst.dropLast && env.copyOk src dst then
        (FS.insert fs dst (Node.file env.stamp bytes), true)
      else (fs, false)
  | _ => (fs, false)

/-! ## The state of `MainWindow` -/

/-- The lines `LogMessage` appends to the log text box (without their timestamp). -/
inductive LogMsg where
  | newFileDetected (relative : String)
  | modifiedFileDetected (relative : String)
  | failedRemove (destPath : Path)
  | failedCopy (sourcePath : Path)
  | copied (sourcePath destPath : Path)
  | failedCreateDir (destDir : Path)
  | completed
  | manualTriggered
  | started
  | stopped
  deriving DecidableEq, Repr

/-- A record of what the code did: calls of the repository's functions and
filesystem operations attempted, with their outcome. -/
inductive Op where
  | enter (sourceDir destDir : Path)
  | examine (sourceFilePath : Path) (currentModified : Int)
  | callCopyFile (sourcePath destPath : Path)
  | mkpath (p : Path) (ok : Bool)
  | remove (p : Path) (ok : Bool)
  | copy (src dst : Path) (ok : Bool)
  deriving DecidableEq, Repr

/-- The member `lastModifiedTimes`: later bindings shadow earlier ones. -/
abbrev Tracker := List (Path × Int)

/-- The recorded time of a path (`QHash::value`), if the hash contains it. -/
def Tracker.find : Tracker → Path → Option Int
  | [], _ => none
  | (k, t) :: rest, p => if k = p then some t else Tracker.find rest p

/-- The hash has the key: `QHash::contains`. -/
def Tracker.contains (t : Tracker) (p : Path) : Bool :=
  (Tracker.find t p).isSome

/-- The assignment `lastModifiedTimes[p] = m`. -/
def Tracker.assign (t : Tracker) (p : Path) (m : Int) : Tracker :=
  (p, m) :: t

/-- The engine's state: filesystem, tracker, log box, and the record of operations. -/
structure State where
  fs : FS
  lastModifiedTimes : Tracker
  log : List LogMsg
  trace : List Op

/-- The method `LogMessage`: append a line to the log box. -/
def LogMessage (st : State) (msg : LogMsg) : State :=
  { st with log := st.log ++ [msg] }

/-- Record an operation. -/
def State.note (st : State) (op : Op) : State :=
  { st with trace := st.trace ++ [op] }

/-! ## The synchronisation engine -/

/-- Call `QDir::mkpath` on the state's filesystem and record the attempt. -/
def doMkpath (env : Env) (st : State) (p : Path) : State × Bool :=
  let r := mkpath env st.fs p
  (({ st with fs := r.1 }).note (Op.mkpath p r.2), r.2)

/-- Call `QFile::remove` on the state's filesystem and record the attempt. -/
def doRemove (env : Env) (st : State) (p : Path) : State × Bool :=
  let r := removeFile env st.fs p
  (({ st with fs := r.1 }).note (Op.remove p r.2), r.2)

/-- Call `QFile::copy` on the state's filesystem and record the attempt. -/
def doCopy (env : Env) (st : State) (src dst : Path) : State × Bool :=
  let r := copyBytes env st.fs src dst
  (({ st with fs := r.1 }).note (Op.copy src dst r.2), r.2)

/-- The method `CopyFile`, its last step (lines 170-173): copy the bytes and log the outcome. -/
def copyAndReport (env : Env) (st : State) (sourcePath destPath : Path) : State :=
  let r := doCopy env st sourcePath destPath
  if !r.2 then LogMessage r.1 (LogMsg.failedCopy sourcePath)
  else LogMessage r.1 (LogMsg.copied sourcePath destPath)

/-- The method `CopyFile` (lines 142-174). For a directory it creates the
destination path. For a file it creates the destination's directory (the result
of that `mkpath` is not looked at), removes an existing destination, giving up
with a log line if that fails, and then copies. -/
def CopyFile (env : Env) (st : State) (sourcePath destPath : Path) : State :=
  let st0 := st.note (Op.callCopyFile sourcePath destPath)
  if FS.isDir st0.fs sourcePath then
    (doMkpath env st0 destPath).1
  else
    let st1 := (doMkpath env st0 destPath.dropLast).1
    if FS.pathExists st1.fs destPath then
      let q := doRemove env st1 destPath
      if !q.2 then LogMessage q.1 (LogMsg.failedRemove destPath)
      else copyAndReport env q.1 sourcePath destPath
    else copyAndReport env st1 sourcePath destPath

/-- The value of the flag `shouldCopy` after lines 204-216 of `ProcessDirectory`:
set when the hash does not contain the path, or else when the recorded time is
before the current one. -/
def shouldCopy (t : Tracker) (sourceFilePath : Path) (currentModified : Int) : Bool :=
  if !Tracker.contains t sourceFilePath then true
  else if (Tracker.find t sourceFilePath).getD 0 < currentModified then true
  else false

/-- The log line of lines 204-216 of `ProcessDirectory`, written next to the flag. -/
def logDetection (st : State) (file : String) (sourceFilePath : Path)
    (currentModified : Int) : State :=
  if !Tracker.contains st.lastModifiedTimes sourceFilePath then
    LogMessage st (LogMsg.newFileDetected file)
  else if (Tracker.find st.lastModifiedTimes sourceFilePath).getD 0 < currentModified then
    LogMessage st (LogMsg.modifiedFileDetected file)
  else st

/-- The body of the `foreach` over files in `ProcessDirectory` (lines 198-223). -/
def processFile (env : Env) (sourceDir destDir : Path) (st : State) (file : String) : State :=
  let sourceFilePath := sourceDir ++ [file]
  let destFilePath := destDir ++ [file]
  let currentModified := FS.lastModified st.fs sourceFilePath
  let st0 := st.note (Op.examine sourceFilePath currentModified)
  let st1 := logDetection st0 file sourceFilePath currentModified
  if shouldCopy st0.lastModifiedTimes sourceFilePath currentModified then
    let st2 := CopyFile env st1 sourceFilePath destFilePath
    { st2 with lastModifiedTimes :=
        Tracker.assign st2.lastModifiedTimes sourceFilePath currentModified }
  else st1

/-- The guard of `ProcessDirectory` (line 188): `destDir.exists()`, and only when
that is false `destDir.mkpath(".")`. The flag is false when the guard fires. -/
def ensureDestDir (env : Env) (st : State) (destDir : Path) : State × Bool :=
  if FS.isDir st.fs destDir then (st, true)
  else doMkpath env st destDir

/-- The method `ProcessDirectory` (lines 185-234). The first argument bounds the
depth of the recursion; `none` means that the bound was reached before the walk
returned. -/
def ProcessDirectory (env : Env) :
    Nat → Path → Path → String → State → Option State
  | 0, _, _, _, _ => none
  | fuel + 1, sourceDir, destDir, _, st =>
    let r := ensureDestDir env (st.note (Op.enter sourceDir destDir)) destDir
    if !r.2 then some (LogMessage r.1 (LogMsg.failedCreateDir destDir))
    else
      let files := FS.entryListFiles env.hidden r.1.fs sourceDir
      let st1 := files.foldl (processFile env sourceDir destDir) r.1
      let dirs := FS.entryListDirs env.hidden st1.fs sourceDir
      dirs.foldlM
        (fun s dir =>
          ProcessDirectory env fuel (sourceDir ++ [dir]) (destDir ++ [dir]) dir s)
        st1

/-! ## The window: configuration, buttons and the timer slot -/

/-- Split a list of characters at every slash; the second argument is the
component read so far, reversed. -/
def splitSlash : List Char → List Char → List String
  | [], cur => [String.mk cur.reverse]
  | c :: cs, cur =>
      if c = '/' then String.mk cur.reverse :: splitSlash cs []
      else splitSlash cs (c :: cur)

/-- The directory a `QDir` built from a text denotes: a text starting with a
slash is absolute, any other is taken from the working directory; the empty
text denotes the working directory itself. -/
def QDir (env : Env) (text : String) : Path :=
  let comps := (splitSlash text.toList []).filter (fun c => decide (c ≠ "" ∧ c ≠ "."))
  if text.toList.head? = some '/' then comps else env.cwd ++ comps

/-- Milliseconds in a day. -/
def msPerDay : Nat := 86400000

/-- The time of day `QTime(h, m)`, in milliseconds since midnight. -/
def QTime (h m : Nat) : Nat := (h * 3600 + m * 60) * 1000

/-- The method `QTime::addSecs`: the time `s` seconds later, wrapping at midnight. -/
def addSecs (t s : Nat) : Nat := (t + s * 1000) % msPerDay

/-- The widgets the engine reads. -/
structure Ui where
  sourceLineEdit : String
  destinationLineEdit : String
  timeEdit1 : Nat
  timeEdit2 : Nat

/-- The window: widgets, whether `checkTimer` runs, warnings shown in message
boxes, and the engine's state. -/
structure MainWindow where
  ui : Ui
  checkTimerActive : Bool
  warnings : List String
  st : State

/-- The method `OnStartButtonClicked` (lines 60-95). -/
def OnStartButtonClicked (env : Env) (w : MainWindow) : MainWindow :=
  let sourcePath := w.ui.sourceLineEdit
  let destPath := w.ui.destinationLineEdit
  if sourcePath.isEmpty || destPath.isEmpty then
    { w with warnings := w.warnings ++ ["Please enter both source and destination paths"] }
  else
    let sourceDir := QDir env sourcePath
    let destDir := QDir env destPath
    if !FS.isDir w.st.fs sourceDir then
      { w with warnings := w.warnings ++ ["Source directory does not exist"] }
    else
      let r := ensureDestDir env w.st destDir
      if !r.2 then
        { w with st := r.1,
                 warnings := w.warnings ++ ["Could not create destination directory"] }
      else
        { w with checkTimerActive := true, st := LogMessage r.1 LogMsg.started }

/-- The method `OnStopButtonClicked` (lines 98-102). -/
def OnStopButtonClicked (w : MainWindow) : MainWindow :=
  { w with checkTimerActive := false, st := LogMessage w.st LogMsg.stopped }

/-- The method `CopyNewAndChangedFiles` (lines 120-132). -/
def CopyNewAndChangedFiles (env : Env) (fuel : Nat) (w : MainWindow) : Option MainWindow :=
  let sourcePath := w.ui.sourceLineEdit
  let destPath := w.ui.destinationLineEdit
  let sourceDir := QDir env sourcePath
  let destDir := QDir env destPath
  match ProcessDirectory env fuel sourceDir destDir sourcePath w.st with
  | none => none
  | some st => some { w with st := LogMessage st LogMsg.completed }

/-- The method `OnManualCopyButton` (lines 135-139). -/
def OnManualCopyButton (env : Env) (fuel : Nat) (w : MainWindow) : Option MainWindow :=
  match CopyNewAndChangedFiles env fuel w with
  | none => none
  | some w1 => some { w1 with st := LogMessage w1.st LogMsg.manualTriggered }

/-- The condition of `CheckScheduledCopy` (lines 112-113). -/
def inScheduleWindow (currentTime scheduledTime1 scheduledTime2 : Nat) : Bool :=
  (decide (currentTime ≥ scheduledTime1) && decide (currentTime ≤ addSecs scheduledTime1 60)) ||
  (decide (currentTime ≥ scheduledTime2) && decide (currentTime ≤ addSecs scheduledTime2 60))

/-- The method `CheckScheduledCopy` (lines 105-117); `currentTime` is what
`QTime::currentTime()` returns. -/
def CheckScheduledCopy (env : Env) (fuel : Nat) (currentTime : Nat) (w : MainWindow) :
    Option MainWindow :=
  if inScheduleWindow currentTime w.ui.timeEdit1 w.ui.timeEdit2 then
    CopyNewAndChangedFiles env fuel w
  else some w

/-! ## Concrete filesystems and environments used as instances -/

/-- The Unix rule for hidden entries: the name starts with a dot. -/
def dotName (name : String) : Bool :=
  decide (name.toList.head? = some '.')

/-- An environment in which the system permits every operation. -/
def envOk : Env :=
  { mkpathOk := fun _ => true, removeOk := fun _ => true, copyOk := fun _ _ => true,
    stamp := 100, cwd := ["home"], hidden := dotName }

/-- An environment in which the system refuses every byte copy. -/
def envNoCopy : Env :=
  { mkpathOk := fun _ => true, removeOk := fun _ => true, copyOk := fun _ _ => false,
    stamp := 100, cwd := ["home"], hidden := dotName }

/-- An environment in which the system refuses to create directories. -/
def envNoMkdir : Env :=
  { mkpathOk := fun _ => false, removeOk := fun _ => true, copyOk := fun _ _ => true,
    stamp := 100, cwd := ["home"], hidden := dotName }

/-- An environment with a limit on the length of a path: directories of more
than three components cannot be created. -/
def envDepth : Env :=
  { mkpathOk := fun p => decide (p.length ≤ 3), removeOk := fun _ => true,
    copyOk := fun _ _ => true, stamp := 100, cwd := ["home"], hidden := dotName }

/-- A state with the given filesystem and tracker, empty log and record. -/
def mkState (fs : FS) (t : Tracker) : State :=
  { fs := fs, lastModifiedTimes := t, log := [], trace := [] }

/-- A source directory `/s` holding one file `a.txt`; no destination yet. -/
def fsA : FS :=
  [([], Node.dir), (["s"], Node.dir), (["s", "a.txt"], Node.file 5 [1, 2])]

/-- A source `/s` with a file and a subdirectory holding a file; empty destination `/d`. -/
def fsTree : FS :=
  [([], Node.dir), (["s"], Node.dir), (["s", "a.txt"], Node.file 5 [1, 2]),
   (["s", "sub"], Node.dir), (["s", "sub", "b.txt"], Node.file 6 [3]), (["d"], Node.dir)]

/-- An empty source directory `/s`. -/
def fsEmptySource : FS := [([], Node.dir), (["s"], Node.dir)]

/-- A source `/s` with file `a.txt`, and a destination `/s/d` inside it that
already holds a file `d/a.txt`. -/
def fsNested : FS :=
  [([], Node.dir), (["s"], Node.dir), (["s", "a.txt"], Node.file 5 [1]),
   (["s", "d"], Node.dir), (["s", "d", "d"], Node.dir),
   (["s", "d", "d", "a.txt"], Node.file 1 [9])]

/-- The working directory `/home` holding one file. -/
def fsHome : FS :=
  [([], Node.dir), (["home"], Node.dir), (["home", "n.txt"], Node.file 5 [7])]

/-- A window whose two path fields are empty, with the default trigger times. -/
def windowEmptyPaths : MainWindow :=
  { ui := { sourceLineEdit := "", destinationLineEdit := "",
            timeEdit1 := QTime 12 0, timeEdit2 := QTime 18 0 },
    checkTimerActive := true, warnings := [], st := mkState fsHome [] }

/-- A window configured to mirror `/s` into `/d` over the filesystem `fsA`. -/
def windowA : MainWindow :=
  { ui := { sourceLineEdit := "/s", destinationLineEdit := "/d",
            timeEdit1 := QTime 12 0, timeEdit2 := QTime 18 0 },
    checkTimerActive := false, warnings := [], st := mkState fsA [] }

/-- A destination `/d` whose subdirectory `s` is the source: `/d/s` holds a
directory `s` with one file. -/
def fsSourceInDest : FS :=
  [([], Node.dir), (["d"], Node.dir), (["d", "s"], Node.dir), (["d", "s", "s"], Node.dir),
   (["d", "s", "s", "a.txt"], Node.file 5 [1])]

/-- A window configured to mirror `/d/s` into `/d` over `fsSourceInDest`. -/
def windowSourceInDest : MainWindow :=
  { ui := { sourceLineEdit := "/d/s", destinationLineEdit := "/d",
            timeEdit1 := QTime 12 0, timeEdit2 := QTime 18 0 },
    checkTimerActive := false, warnings := [], st := mkState fsSourceInDest [] }

/-- The window `windowA` after a first run in which everything is permitted. -/
def windowA1 : MainWindow :=
  (CopyNewAndChangedFiles envOk 3 windowA).getD windowA

/-- The window after a second run, started on the filesystem and tracker the first left. -/
def windowA2 : MainWindow :=
  (CopyNewAndChangedFiles envOk 3
    { windowA1 with st := mkState windowA1.st.fs windowA1.st.lastModifiedTimes }).getD windowA1

/-- A source `/s` holding only the hidden file `.cfg`, and an empty destination `/d`. -/
def fsHidden : FS :=
  [([], Node.dir), (["s"], Node.dir), (["s", ".cfg"], Node.file 5 [4]), (["d"], Node.dir)]

/-! ## Predicates used in the statements -/

/-- The filesystem holds directories only. -/
def onlyDirs (fs : FS) : Prop := ∀ e ∈ fs, e.2 = Node.dir

/-- What every piece of a run guarantees between the state before and the state
after: tracker entries only grow; the record and the log are extended; every
call of `CopyFile` recorded in the extension follows an examination that
selected the file against the tracker before; every examined file is in the
tracker afterwards with at least the time it was examined at; and every
`Copied` line comes from a recorded call of `CopyFile`. -/
structure RunInv (st st' : State) : Prop where
  mono : ∀ p r, Tracker.find st.lastModifiedTimes p = some r →
    ∃ r', Tracker.find st'.lastModifiedTimes p = some r' ∧ r ≤ r'
  ext : ∃ l ll, st'.trace = st.trace ++ l ∧ st'.log = st.log ++ ll ∧
    (∀ p d, Op.callCopyFile p d ∈ l →
      ∃ m, Op.examine p m ∈ l ∧ shouldCopy st.lastModifiedTimes p m = true) ∧
    (∀ p m, Op.examine p m ∈ l →
      ∃ r, Tracker.find st'.lastModifiedTimes p = some r ∧ m ≤ r) ∧
    (∀ p d, LogMsg.copied p d ∈ ll → Op.callCopyFile p d ∈ l)

/-- The path `q` is `d` or lies below it. -/
def startsWith : Path → Path → Bool
  | [], _ => true
  | _ :: _, [] => false
  | a :: d, b :: q => decide (a = b) && startsWith d q

/-- The part of the filesystem at and below the directory `d`, in the store's order. -/
def FS.below (d : Path) (fs : FS) : FS :=
  fs.filter (fun e => startsWith d e.1)

/-- Every node has all its ancestors, and they are directories. -/
def FS.wellFormed (fs : FS) : Bool :=
  fs.all (fun e => e.1.inits.all (fun q => decide (q = e.1) || FS.isDir fs q))

/-- The length of the longest path of the filesystem. -/
def FS.maxDepth : FS → Nat
  | [] => 0
  | e :: rest => max e.1.length (FS.maxDepth rest)

/-- A filesystem operation that was attempted and failed. -/
def Op.failed : Op → Bool
  | Op.mkpath _ ok => !ok
  | Op.remove _ ok => !ok
  | Op.copy _ _ ok => !ok
  | _ => false

/-- Every path at or below `d` is fewer than `n` components longer than `d`. -/
def FS.shallow (fs : FS) (d : Path) (n : Nat) : Prop :=
  ∀ e ∈ fs, startsWith d e.1 = true → e.1.length < d.length + n

/-- Below `S`, every node that is deeper than a child of a directory has that
child as a directory. -/
def FS.closedBelow (S : Path) (fs : FS) : Prop :=
  ∀ (t : Path) (x : String) (u : Path) (n : Node), u ≠ [] →
    FS.get fs (S ++ t ++ x :: u) = some n → FS.get fs (S ++ t ++ [x]) = some Node.dir

/-! ## Basic facts about the tracker and the record of operations -/

@[simp] theorem LogMessage_fs (st : State) (msg : LogMsg) : (LogMessage st msg).fs = st.fs := rfl
@[simp] theorem LogMessage_tracker (st : State) (msg : LogMsg) :
    (LogMessage st msg).lastModifiedTimes = st.lastModifiedTimes := rfl
@[simp] theorem LogMessage_trace (st : State) (msg : LogMsg) :
    (LogMessage st msg).trace = st.trace := rfl
@[simp] theorem LogMessage_log (st : State) (msg : LogMsg) :
    (LogMessage st msg).log = st.log ++ [msg] := rfl
@[simp] theorem note_fs (st : State) (op : Op) : (st.note op).fs = st.fs := rfl
@[simp] theorem note_tracker (st : State) (op : Op) :
    (st.note op).lastModifiedTimes = st.lastModifiedTimes := rfl
@[simp] theorem note_trace (st : State) (op : Op) : (st.note op).trace = st.trace ++ [op] := rfl
@[simp] theorem note_log (st : State) (op : Op) : (st.note op).log = st.log := rfl

@[simp] theorem doMkpath_tracker (env : Env) (st : State) (p : Path) :
    (doMkpath env st p).1.lastModifiedTimes = st.lastModifiedTimes := rfl
@[simp] theorem doMkpath_trace (env : Env) (st : State) (p : Path) :
    (doMkpath env st p).1.trace = st.trace ++ [Op.mkpath p (mkpath env st.fs p).2] := rfl
@[simp] theorem doMkpath_log (env : Env) (st : State) (p : Path) :
    (doMkpath env st p).1.log = st.log := rfl
@[simp] theorem doMkpath_fs (env : Env) (st : State) (p : Path) :
    (doMkpath env st p).1.fs = (mkpath env st.fs p).1 := rfl
@[simp] theorem doMkpath_ok (env : Env) (st : State) (p : Path) :
    (doMkpath env st p).2 = (mkpath env st.fs p).2 := rfl
@[simp] theorem doRemove_tracker (env : Env) (st : State) (p : Path) :
    (doRemove env st p).1.lastModifiedTimes = st.lastModifiedTimes := rfl
@[simp] theorem doRemove_trace (env : Env) (st : State) (p : Path) :
    (doRemove env st p).1.trace = st.trace ++ [Op.remove p (removeFile env st.fs p).2] := rfl
@[simp] theorem doRemove_log (env : Env) (st : State) (p : Path) :
    (doRemove env st p).1.log = st.log := rfl
@[simp] theorem doRemove_fs (env : Env) (st : State) (p : Path) :
    (doRemove env st p).1.fs = (removeFile env st.fs p).1 := rfl
@[simp] theorem doRemove_ok (env : Env) (st : State) (p : Path) :
    (doRemove env st p).2 = (removeFile env st.fs p).2 := rfl
@[simp] theorem doCopy_tracker (env : Env) (st : State) (s d : Path) :
    (doCopy env st s d).1.lastModifiedTimes = st.lastModifiedTimes := rfl
@[simp] theorem doCopy_trace (env : Env) (st : State) (s d : Path) :
    (doCopy env st s d).1.trace = st.trace ++ [Op.copy s d (copyBytes env st.fs s d).2] := rfl
@[simp] theorem doCopy_log (env : Env) (st : State) (s d : Path) :
    (doCopy env st s d).1.log = st.log := rfl
@[simp] theorem doCopy_fs (env : Env) (st : State) (s d : Path) :
    (doCopy env st s d).1.fs = (copyBytes env st.fs s d).1 := rfl
@[simp] theorem doCopy_ok (env : Env) (st : State) (s d : Path) :
    (doCopy env st s d).2 = (copyBytes env st.fs s d).2 := rfl

@[simp] theorem copyAndReport_tracker (env : Env) (st : State) (s d : Path) :
    (copyAndReport env st s d).lastModifiedTimes = st.lastModifiedTimes := by
  unfold copyAndReport
  simp only []
  split <;> rfl

@[simp] theorem copyAndReport_trace (env : Env) (st : State) (s d : Path) :
    (copyAndReport env st s d).trace = st.trace ++ [Op.copy s d (copyBytes env st.fs s d).2] := by
  unfold copyAndReport
  simp only []
  split <;> rfl

@[simp] theorem copyAndReport_fs (env : Env) (st : State) (s d : Path) :
    (copyAndReport env st s d).fs = (copyBytes env st.fs s d).1 := by
  unfold copyAndReport
  simp only []
  split <;> rfl

/-- The method `CopyFile` never writes the tracker. -/
@[simp] theorem CopyFile_tracker (env : Env) (st : State) (s d : Path) :
    (CopyFile env st s d).lastModifiedTimes = st.lastModifiedTimes := by
  unfold CopyFile
  simp only []
  split
  · simp
  · split
    · split <;> simp
    · simp

/-- The record after `CopyFile` is the record before, the call, and what the call did. -/
theorem CopyFile_trace (env : Env) (st : State) (s d : Path) :
    ∃ l, (CopyFile env st s d).trace = st.trace ++ Op.callCopyFile s d :: l := by
  unfold CopyFile
  simp only []
  split
  · simp
  · split
    · split <;> simp
    · simp

theorem Tracker.find_assign (t : Tracker) (p q : Path) (m : Int) :
    Tracker.find (Tracker.assign t p m) q = if p = q then some m else Tracker.find t q := by
  simp [Tracker.assign, Tracker.find]

/-- The flag `shouldCopy` in terms of the recorded time. -/
theorem shouldCopy_eq_true_iff (t : Tracker) (p : Path) (m : Int) :
    shouldCopy t p m = true ↔
      (Tracker.find t p = none ∨ ∃ r, Tracker.find t p = some r ∧ r < m) := by
  unfold shouldCopy Tracker.contains
  cases h : Tracker.find t p with
  | none => simp
  | some r => simp

theorem logDetection_fs (st : State) (file : String) (p : Path) (m : Int) :
    (logDetection st file p m).fs = st.fs := by
  unfold logDetection; split
  · rfl
  · split <;> rfl

@[simp] theorem logDetection_tracker (st : State) (file : String) (p : Path) (m : Int) :
    (logDetection st file p m).lastModifiedTimes = st.lastModifiedTimes := by
  unfold logDetection; split
  · rfl
  · split <;> rfl

@[simp] theorem logDetection_trace (st : State) (file : String) (p : Path) (m : Int) :
    (logDetection st file p m).trace = st.trace := by
  unfold logDetection; split
  · rfl
  · split <;> rfl

theorem logDetection_of_not_shouldCopy (st : State) (file : String) (p : Path) (m : Int)
    (h : shouldCopy st.lastModifiedTimes p m = false) : logDetection st file p m = st := by
  unfold shouldCopy at h
  unfold logDetection
  split
  · rename_i h1; simp [h1] at h
  · rename_i h1
    split
    · rename_i h2; simp [h1, h2] at h
    · rfl

/-- Claim C1. The per-file copy decision of `ProcessDirectory` is the tracker
contract: the flag `shouldCopy` is set exactly when the path is absent from
`lastModifiedTimes` or recorded with a strictly older time; a path never seen is
selected, a path recorded with an equal or newer time is not; and the loop body
calls `CopyFile` on the file exactly when the flag is set (otherwise it performs
no operation and leaves filesystem and tracker as they were). -/
theorem C1_copy_decision (t : Tracker) (p : Path) (m : Int)
    (env : Env) (sourceDir destDir : Path) (st : State) (file : String) :
    (shouldCopy t p m = true ↔
        (Tracker.find t p = none ∨ ∃ r, Tracker.find t p = some r ∧ r < m)) ∧
    (Tracker.find t p = none → shouldCopy t p m = true) ∧
    (∀ r, Tracker.find t p = some r → m ≤ r → shouldCopy t p m = false) ∧
    (if shouldCopy st.lastModifiedTimes (sourceDir ++ [file])
          (FS.lastModified st.fs (sourceDir ++ [file])) = true then
        ∃ l, (processFile env sourceDir destDir st file).trace =
          st.trace ++ Op.examine (sourceDir ++ [file]) (FS.lastModified st.fs (sourceDir ++ [file]))
            :: Op.callCopyFile (sourceDir ++ [file]) (destDir ++ [file]) :: l
      else
        processFile env sourceDir destDir st file =
          st.note (Op.examine (sourceDir ++ [file])
            (FS.lastModified st.fs (sourceDir ++ [file])))) := by
  refine ⟨shouldCopy_eq_true_iff t p m, ?_, ?_, ?_⟩
  · intro h; exact (shouldCopy_eq_true_iff t p m).2 (Or.inl h)
  · intro r hr hle
    cases hs : shouldCopy t p m with
    | false => rfl
    | true =>
      rcases (shouldCopy_eq_true_iff t p m).1 hs with h | ⟨r', h, hlt⟩
      · rw [hr] at h; cases h
      · rw [hr] at h; cases h; omega
  · split
    · rename_i h
      unfold processFile
      simp only [note_tracker, note_fs, h, if_true]
      obtain ⟨l, hl⟩ := CopyFile_trace env
        (logDetection (st.note (Op.examine (sourceDir ++ [file])
          (FS.lastModified st.fs (sourceDir ++ [file])))) file (sourceDir ++ [file])
          (FS.lastModified st.fs (sourceDir ++ [file]))) (sourceDir ++ [file]) (destDir ++ [file])
      exact ⟨l, by rw [hl]; simp⟩
    · rename_i h
      have h' : shouldCopy st.lastModifiedTimes (sourceDir ++ [file])
          (FS.lastModified st.fs (sourceDir ++ [file])) = false := by
        simpa using h
      unfold processFile
      simp only [note_tracker, note_fs, h']
      exact logDetection_of_not_shouldCopy _ _ _ _ (by simpa using h')

/-- The tracker after the loop body, when the file is selected. -/
theorem processFile_tracker_of_shouldCopy (env : Env) (sourceDir destDir : Path) (st : State)
    (file : String)
    (h : shouldCopy st.lastModifiedTimes (sourceDir ++ [file])
          (FS.lastModified st.fs (sourceDir ++ [file])) = true) :
    (processFile env sourceDir destDir st file).lastModifiedTimes =
      Tracker.assign st.lastModifiedTimes (sourceDir ++ [file])
        (FS.lastModified st.fs (sourceDir ++ [file])) := by
  unfold processFile
  simp only [note_tracker, note_fs, h, if_true]
  simp

/-- The tracker after the loop body, when the file is not selected. -/
theorem processFile_of_not_shouldCopy (env : Env) (sourceDir destDir : Path) (st : State)
    (file : String)
    (h : shouldCopy st.lastModifiedTimes (sourceDir ++ [file])
          (FS.lastModified st.fs (sourceDir ++ [file])) = false) :
    processFile env sourceDir destDir st file =
      st.note (Op.examine (sourceDir ++ [file]) (FS.lastModified st.fs (sourceDir ++ [file]))) := by
  unfold processFile
  simp only [note_tracker, note_fs, h]
  exact logDetection_of_not_shouldCopy _ _ _ _ (by simpa using h)

/-- Claim C3. Update on attempt: when the loop body selects a file with current
modification time `m`, the tracker afterwards maps the file's source path to `m`
whatever the environment let `CopyFile` do, and the entry of every other path is
as before. -/
theorem C3_update_on_attempt (env : Env) (sourceDir destDir : Path) (st : State)
    (file : String)
    (h : shouldCopy st.lastModifiedTimes (sourceDir ++ [file])
          (FS.lastModified st.fs (sourceDir ++ [file])) = true) :
    Tracker.find (processFile env sourceDir destDir st file).lastModifiedTimes
        (sourceDir ++ [file]) = some (FS.lastModified st.fs (sourceDir ++ [file])) ∧
    ∀ q, q ≠ sourceDir ++ [file] →
      Tracker.find (processFile env sourceDir destDir st file).lastModifiedTimes q =
        Tracker.find st.lastModifiedTimes q := by
  rw [processFile_tracker_of_shouldCopy env sourceDir destDir st file h]
  refine ⟨by simp [Tracker.find_assign], ?_⟩
  intro q hq
  rw [Tracker.find_assign, if_neg (fun e => hq e.symm)]

/-! ## Facts about the filesystem model -/

theorem FS.get_cons (k : Path) (n : Node) (fs : FS) (p : Path) :
    FS.get ((k, n) :: fs) p = if k = p then some n else FS.get fs p := rfl

theorem FS.get_erase (fs : FS) (p q : Path) :
    FS.get (FS.erase fs p) q = if q = p then none else FS.get fs q := by
  induction fs with
  | nil => simp [FS.erase, FS.get]
  | cons e fs ih =>
    obtain ⟨k, n⟩ := e
    unfold FS.erase at ih ⊢
    by_cases hk : k = p
    · subst hk
      simp only [List.filter, ne_eq, not_true_eq_false, decide_False]
      rw [ih, FS.get_cons]
      by_cases hq : q = k
      · simp [hq]
      · simp [hq, Ne.symm hq]
    · simp only [List.filter, ne_eq, hk, not_false_eq_true, decide_True]
      rw [FS.get_cons, FS.get_cons, ih]
      by_cases hq : q = p
      · subst hq; simp [hk]
      · simp [hq]

theorem FS.get_insert (fs : FS) (p q : Path) (n : Node) :
    FS.get (FS.insert fs p n) q = if p = q then some n else FS.get fs q := by
  unfold FS.insert
  rw [FS.get_cons, FS.get_erase]
  by_cases h : p = q
  · simp [h]
  · simp [h, Ne.symm h]

theorem FS.mem_of_get (fs : FS) (p : Path) (n : Node) (h : FS.get fs p = some n) :
    (p, n) ∈ fs := by
  induction fs with
  | nil => simp [FS.get] at h
  | cons e fs ih =>
    obtain ⟨k, m⟩ := e
    rw [FS.get_cons] at h
    by_cases hk : k = p
    · simp [hk] at h; subst hk; subst h; simp
    · simp [hk] at h; exact List.mem_cons_of_mem _ (ih h)

theorem FS.get_isSome_of_mem (fs : FS) (p : Path) (n : Node) (h : (p, n) ∈ fs) :
    (FS.get fs p).isSome = true := by
  induction fs with
  | nil => simp at h
  | cons e fs ih =>
    obtain ⟨k, m⟩ := e
    rw [FS.get_cons]
    by_cases hk : k = p
    · simp [hk]
    · simp only [hk, if_false]
      rcases List.mem_cons.1 h with h1 | h1
      · cases h1; exact absurd rfl hk
      · exact ih h1

theorem FS.get_addDirs (qs : List Path) (fs : FS) (q : Path) :
    FS.get (FS.addDirs fs qs) q =
      match FS.get fs q with
      | some n => some n
      | none => if q ∈ qs then some Node.dir else none := by
  induction qs generalizing fs with
  | nil => unfold FS.addDirs; cases FS.get fs q <;> simp
  | cons a qs ih =>
    unfold FS.addDirs
    by_cases ha : FS.pathExists fs a = true
    · rw [if_pos ha, ih]
      cases h : FS.get fs q with
      | some n => rfl
      | none =>
        have : q ≠ a := by
          intro e; subst e; simp [FS.pathExists, h] at ha
        simp [this]
    · rw [if_neg ha, ih, FS.get_cons]
      by_cases e : a = q
      · subst e
        have : FS.get fs a = none := by
          simpa [FS.pathExists] using ha
        simp [this]
      · simp only [e, if_false]
        cases h : FS.get fs q with
        | some n => rfl
        | none => simp [Ne.symm e]

theorem childOf_append (d : Path) (x : String) : childOf d (d ++ [x]) = some x := by
  induction d with
  | nil => rfl
  | cons a d ih => simp [childOf, ih]

theorem childOf_eq_some (d k : Path) (x : String) : childOf d k = some x ↔ k = d ++ [x] := by
  constructor
  · intro h
    induction d generalizing k with
    | nil =>
      match k, h with
      | [y], h => simp [childOf] at h; simp [h]
    | cons a d ih =>
      match k, h with
      | b :: k, h =>
        simp only [childOf] at h
        by_cases e : a = b
        · simp only [e, if_true] at h
          simp [e, ih k h]
        · simp [e] at h
  · intro h; subst h; exact childOf_append d x

theorem FS.mem_entryListFiles (hidden : String → Bool) (fs : FS) (d : Path) (x : String) :
    x ∈ FS.entryListFiles hidden fs d ↔
      hidden x = false ∧ ∃ m b, (d ++ [x], Node.file m b) ∈ fs := by
  unfold FS.entryListFiles
  rw [List.mem_filterMap]
  constructor
  · rintro ⟨⟨k, n⟩, hmem, h⟩
    cases n with
    | file m b =>
      simp only [Option.filter_eq_some, Bool.not_eq_true'] at h
      obtain ⟨h1, h2⟩ := h
      rw [Option.mem_def, childOf_eq_some] at h1
      subst h1
      exact ⟨h2, m, b, hmem⟩
    | dir => simp at h
  · rintro ⟨hv, m, b, hmem⟩
    exact ⟨(d ++ [x], Node.file m b), hmem, by simp [childOf_append, Option.filter, hv]⟩

theorem FS.mem_entryListDirs (hidden : String → Bool) (fs : FS) (d : Path) (x : String) :
    x ∈ FS.entryListDirs hidden fs d ↔ hidden x = false ∧ (d ++ [x], Node.dir) ∈ fs := by
  unfold FS.entryListDirs
  rw [List.mem_filterMap]
  constructor
  · rintro ⟨⟨k, n⟩, hmem, h⟩
    cases n with
    | file m b => simp at h
    | dir =>
      simp only [Option.filter_eq_some, Bool.not_eq_true'] at h
      obtain ⟨h1, h2⟩ := h
      rw [Option.mem_def, childOf_eq_some] at h1
      subst h1
      exact ⟨h2, hmem⟩
  · rintro ⟨hv, hmem⟩
    exact ⟨(d ++ [x], Node.dir), hmem, by simp [childOf_append, Option.filter, hv]⟩

/-- Claim C3, an instance: the system refuses the byte copy, the tracker still
records the file with its modification time. -/
theorem C3_update_on_attempt_witness :
    shouldCopy (mkState fsA []).lastModifiedTimes (["s"] ++ ["a.txt"])
        (FS.lastModified (mkState fsA []).fs (["s"] ++ ["a.txt"])) = true ∧
    (Tracker.find (processFile envNoCopy ["s"] ["d"] (mkState fsA []) "a.txt").lastModifiedTimes
        (["s"] ++ ["a.txt"]) = some (FS.lastModified (mkState fsA []).fs (["s"] ++ ["a.txt"])) ∧
    ∀ q, q ≠ ["s"] ++ ["a.txt"] →
      Tracker.find (processFile envNoCopy ["s"] ["d"] (mkState fsA []) "a.txt").lastModifiedTimes q =
        Tracker.find (mkState fsA []).lastModifiedTimes q) :=
  ⟨by decide, C3_update_on_attempt envNoCopy ["s"] ["d"] (mkState fsA []) "a.txt" (by decide)⟩

/-- The log of that instance: the file is detected as new and the copy fails. -/
theorem processFile_refused_copy_log :
    (processFile envNoCopy ["s"] ["d"] (mkState fsA []) "a.txt").log =
    [LogMsg.newFileDetected "a.txt", LogMsg.failedCopy ["s", "a.txt"]] := by decide

/-- Away from midnight the window of `CheckScheduledCopy` is the closed minute
after the trigger time. -/
theorem inScheduleWindow_no_wrap (now t : Nat) (ht : t + 60000 < msPerDay) :
    inScheduleWindow now t t = true ↔ (t ≤ now ∧ now ≤ t + 60000) := by
  have h : addSecs t 60 = t + 60000 := by
    unfold addSecs
    rw [Nat.mod_eq_of_lt (by omega)]
  unfold inScheduleWindow
  rw [h]
  simp

/-- Claim C6, the code at the failing input. With both trigger times at 23:59
the upper end of the window, `scheduledTime.addSecs(60)`, wraps to 00:00:00, so
the condition of `CheckScheduledCopy` holds at no time of day: not at 23:59:00
exactly, and the slot returns without starting a synchronisation. -/
theorem C6_no_fire_at_2359 :
    addSecs (QTime 23 59) 60 = 0 ∧
    inScheduleWindow (QTime 23 59) (QTime 23 59) (QTime 23 59) = false ∧
    (∀ now, inScheduleWindow now (QTime 23 59) (QTime 23 59) = false) ∧
    (∀ env fuel, (CheckScheduledCopy env fuel (QTime 23 59)
        { windowA with ui := { windowA.ui with timeEdit1 := QTime 23 59,
                                               timeEdit2 := QTime 23 59 } }).map
        (fun w => w.st.trace) = some []) := by
  have h0 : addSecs (QTime 23 59) 60 = 0 := by decide
  have hall : ∀ now, inScheduleWindow now (QTime 23 59) (QTime 23 59) = false := by
    intro now
    unfold inScheduleWindow
    rw [h0]
    have : QTime 23 59 = 86340000 := by decide
    rw [this]
    by_cases h : now ≥ 86340000
    · have : ¬ now ≤ 0 := by omega
      simp [h, this]
    · simp [h]
  refine ⟨h0, hall _, hall, ?_⟩
  intro env fuel
  unfold CheckScheduledCopy
  simp only [hall]
  rfl

/-- Claim C10, the code at the failing input. With the destination path equal to
the source path `CopyFile` removes the file as the existing destination, the
copy then finds no source, and the file is gone. -/
theorem C10_source_removed_when_paths_equal :
    FS.get (mkState fsA []).fs ["s", "a.txt"] = some (Node.file 5 [1, 2]) ∧
    FS.get (CopyFile envOk (mkState fsA []) ["s", "a.txt"] ["s", "a.txt"]).fs ["s", "a.txt"]
      = none ∧
    (CopyFile envOk (mkState fsA []) ["s", "a.txt"] ["s", "a.txt"]).trace =
      [Op.callCopyFile ["s", "a.txt"] ["s", "a.txt"], Op.mkpath ["s"] true,
       Op.remove ["s", "a.txt"] true, Op.copy ["s", "a.txt"] ["s", "a.txt"] false] ∧
    (ProcessDirectory envOk 2 ["s"] ["s"] "/s" (mkState fsA [])).map
      (fun st => FS.get st.fs ["s", "a.txt"]) = some none := by
  decide

/-- Claim C8, the code at the failing input. With both path fields empty the
manual button and a scheduled tick both reach `ProcessDirectory`, on the working
directory as source and destination; the file there is selected, removed as the
existing destination and lost, and the tracker is written. -/
theorem C8_empty_paths_not_checked :
    (OnManualCopyButton envOk 2 windowEmptyPaths).map (fun w => w.st.trace) =
      some [Op.enter ["home"] ["home"], Op.examine ["home", "n.txt"] 5,
            Op.callCopyFile ["home", "n.txt"] ["home", "n.txt"], Op.mkpath ["home"] true,
            Op.remove ["home", "n.txt"] true,
            Op.copy ["home", "n.txt"] ["home", "n.txt"] false] ∧
    (OnManualCopyButton envOk 2 windowEmptyPaths).map
        (fun w => (FS.get w.st.fs ["home", "n.txt"], w.st.lastModifiedTimes)) =
      some (none, [(["home", "n.txt"], 5)]) ∧
    (CheckScheduledCopy envOk 2 (QTime 12 0) windowEmptyPaths).map (fun w => w.st.trace) =
      (OnManualCopyButton envOk 2 windowEmptyPaths).map (fun w => w.st.trace) := by
  decide

/-- Claim C5, the code at the failing input. The destination `/s/d` lies inside
the source `/s`; the file `/s/d/d/a.txt` is in the destination tree at the
relative path `d/a.txt`, where the source tree has no file when the run starts.
The run copies `/s/a.txt` to `/s/d/a.txt`, descends into `/s/d`, and overwrites
`/s/d/d/a.txt` with that copy. -/
theorem C5_destination_file_overwritten :
    FS.get fsNested (["s", "d"] ++ ["d", "a.txt"]) = some (Node.file 1 [9]) ∧
    FS.get fsNested (["s"] ++ ["d", "a.txt"]) = none ∧
    (ProcessDirectory envDepth 5 ["s"] ["s", "d"] "/s" (mkState fsNested [])).map
      (fun st => FS.get st.fs (["s", "d"] ++ ["d", "a.txt"])) = some (some (Node.file 100 [1])) := by
  decide

/-- The walk at a destination inside the source: it enters directories that did
not exist when it started. -/
theorem ProcessDirectory_enters_new_directory :
    FS.get fsEmptySource ["s", "d"] = none ∧
    (ProcessDirectory envDepth 5 ["s"] ["s", "d"] "/s" (mkState fsEmptySource [])).map
      (fun st => st.trace) =
      some [Op.enter ["s"] ["s", "d"], Op.mkpath ["s", "d"] true,
            Op.enter ["s", "d"] ["s", "d", "d"], Op.mkpath ["s", "d", "d"] true,
            Op.enter ["s", "d", "d"] ["s", "d", "d", "d"],
            Op.mkpath ["s", "d", "d", "d"] false] := by
  decide

/-! ## The walk with the destination inside the source -/

theorem onlyDirs_get (fs : FS) (h : onlyDirs fs) (p : Path) (n : Node)
    (hg : FS.get fs p = some n) : n = Node.dir :=
  h _ (FS.mem_of_get fs p n hg)

theorem onlyDirs_isFile (fs : FS) (h : onlyDirs fs) (p : Path) : FS.isFile fs p = false := by
  unfold FS.isFile
  cases hg : FS.get fs p with
  | none => rfl
  | some n => rw [onlyDirs_get fs h p n hg]

theorem onlyDirs_entryListFiles (hidden : String → Bool) (fs : FS) (h : onlyDirs fs)
    (d : Path) : FS.entryListFiles hidden fs d = [] := by
  rw [List.eq_nil_iff_forall_not_mem]
  intro x hx
  obtain ⟨-, m, b, hmem⟩ := (FS.mem_entryListFiles hidden fs d x).1 hx
  have := h _ hmem
  simp at this

theorem onlyDirs_addDirs (qs : List Path) (fs : FS) (h : onlyDirs fs) :
    onlyDirs (FS.addDirs fs qs) := by
  induction qs generalizing fs with
  | nil => exact h
  | cons a qs ih =>
    unfold FS.addDirs
    split
    · exact ih fs h
    · apply ih
      intro e he
      rcases List.mem_cons.1 he with h1 | h1
      · rw [h1]
      · exact h e h1

theorem onlyDirs_mkpath (env : Env) (fs : FS) (h : onlyDirs fs) (p : Path) :
    onlyDirs (mkpath env fs p).1 := by
  unfold mkpath
  split
  · exact h
  · split
    · exact onlyDirs_addDirs _ fs h
    · exact h

theorem onlyDirs_ensureDestDir (env : Env) (st : State) (h : onlyDirs st.fs) (p : Path) :
    onlyDirs (ensureDestDir env st p).1.fs := by
  unfold ensureDestDir
  split
  · exact h
  · exact onlyDirs_mkpath env st.fs h p

/-- In a filesystem without regular files the guard of `ProcessDirectory` passes
when the system permits everything, and the destination is a directory afterwards. -/
theorem ensureDestDir_envOk (st : State) (h : onlyDirs st.fs) (p : Path) :
    (ensureDestDir envOk st p).2 = true ∧ FS.isDir (ensureDestDir envOk st p).1.fs p = true := by
  unfold ensureDestDir
  by_cases hd : FS.isDir st.fs p = true
  · simp [hd]
  · have hall : (p.inits.all fun q => !FS.isFile st.fs q) = true := by
      rw [List.all_eq_true]
      intro q _
      simp [onlyDirs_isFile st.fs h q]
    have hm : mkpath envOk st.fs p = (FS.addDirs st.fs p.inits, true) := by
      unfold mkpath
      rw [if_neg hd, hall]
      rfl
    rw [if_neg hd]
    simp only [doMkpath_ok, doMkpath_fs, hm, true_and]
    unfold FS.isDir
    rw [FS.get_addDirs]
    cases hg : FS.get st.fs p with
    | none => simp
    | some n => rw [onlyDirs_get st.fs h p n hg]

theorem foldlM_none_of_mem {σ α : Type} (inv : σ → Prop) (f : σ → α → Option σ) (x : α)
    (hx : ∀ s, inv s → f s x = none)
    (hinv : ∀ s y s', inv s → f s y = some s' → inv s') :
    ∀ (l : List α) (s : σ), x ∈ l → inv s → l.foldlM f s = none := by
  intro l
  induction l with
  | nil => intro s h; simp at h
  | cons a l ih =>
    intro s hmem hs
    rw [List.foldlM_cons]
    cases hfa : f s a with
    | none => rfl
    | some s' =>
      have hs' := hinv s a s' hs hfa
      rcases List.mem_cons.1 hmem with e | hl
      · subst e; rw [hx s hs] at hfa; cases hfa
      · exact ih s' hl hs'

theorem foldlM_inv {σ α : Type} (inv : σ → Prop) (f : σ → α → Option σ)
    (hinv : ∀ s y s', inv s → f s y = some s' → inv s') :
    ∀ (l : List α) (s s' : σ), inv s → l.foldlM f s = some s' → inv s' := by
  intro l
  induction l with
  | nil => intro s s' hs h; simp at h; subst h; exact hs
  | cons a l ih =>
    intro s s' hs h
    rw [List.foldlM_cons] at h
    cases hfa : f s a with
    | none => rw [hfa] at h; simp at h
    | some s1 =>
      rw [hfa] at h
      exact ih s1 s' (hinv s a s1 hs hfa) h

/-- The walk creates no regular file in a filesystem that has none. -/
theorem ProcessDirectory_onlyDirs (env : Env) (fuel : Nat) :
    ∀ (sourceDir destDir : Path) (rel : String) (st st' : State), onlyDirs st.fs →
      ProcessDirectory env fuel sourceDir destDir rel st = some st' → onlyDirs st'.fs := by
  induction fuel with
  | zero => intro _ _ _ _ _ _ h; simp [ProcessDirectory] at h
  | succ fuel ih =>
    intro sourceDir destDir rel st st' hst h
    unfold ProcessDirectory at h
    simp only [] at h
    have hr := onlyDirs_ensureDestDir env (st.note (Op.enter sourceDir destDir)) hst destDir
    split at h
    · cases h; exact hr
    · rw [onlyDirs_entryListFiles _ _ hr] at h
      simp only [List.foldl_nil] at h
      exact foldlM_inv (fun s => onlyDirs s.fs) _
        (fun s y s' hs hf => ih _ _ _ s s' hs hf) _ _ _ hr h

/-- With every operation permitted and no regular file anywhere, the walk from a
directory into a destination directly inside it reaches every depth bound. -/
theorem ProcessDirectory_diverges (fuel : Nat) :
    ∀ (sourceDir : Path) (rel : String) (st : State), onlyDirs st.fs →
      ProcessDirectory envOk fuel sourceDir (sourceDir ++ ["d"]) rel st = none := by
  induction fuel with
  | zero => intro _ _ _ _; rfl
  | succ fuel ih =>
    intro sourceDir rel st hst
    unfold ProcessDirectory
    simp only []
    have hr := onlyDirs_ensureDestDir envOk (st.note (Op.enter sourceDir (sourceDir ++ ["d"])))
      hst (sourceDir ++ ["d"])
    obtain ⟨hok, hdir⟩ := ensureDestDir_envOk (st.note (Op.enter sourceDir (sourceDir ++ ["d"])))
      hst (sourceDir ++ ["d"])
    rw [hok]
    simp only [Bool.not_true, Bool.false_eq_true, if_false]
    rw [onlyDirs_entryListFiles _ _ hr]
    simp only [List.foldl_nil]
    have hmem : "d" ∈ FS.entryListDirs envOk.hidden
        (ensureDestDir envOk (st.note (Op.enter sourceDir (sourceDir ++ ["d"])))
          (sourceDir ++ ["d"])).1.fs sourceDir := by
      rw [FS.mem_entryListDirs]
      refine ⟨by decide, ?_⟩
      unfold FS.isDir at hdir
      cases hg : FS.get (ensureDestDir envOk (st.note (Op.enter sourceDir (sourceDir ++ ["d"])))
          (sourceDir ++ ["d"])).1.fs (sourceDir ++ ["d"]) with
      | none => rw [hg] at hdir; simp at hdir
      | some n =>
        cases n with
        | file m b => rw [hg] at hdir; simp at hdir
        | dir => exact FS.mem_of_get _ _ _ hg
    exact foldlM_none_of_mem (fun s => onlyDirs s.fs) _ "d"
      (fun s hs => ih (sourceDir ++ ["d"]) "d" s hs)
      (fun s y s' hs hf => ProcessDirectory_onlyDirs envOk fuel _ _ _ s s' hs hf) _ _ hmem hr

/-- Claim C9, the code at the failing input. The source `/s` is an empty
directory and the destination `/s/d` lies inside it. Every operation is
permitted. Whatever the bound on the depth of the recursion, `ProcessDirectory`
reaches it: each call creates its destination inside its source and then
descends into it. -/
theorem C9_walk_into_own_destination_diverges :
    ∀ fuel, ProcessDirectory envOk fuel ["s"] (["s"] ++ ["d"]) "/s"
      (mkState fsEmptySource []) = none := by
  intro fuel
  apply ProcessDirectory_diverges
  intro e he
  simp [mkState, fsEmptySource] at he
  rcases he with h | h <;> rw [h]

/-! ## What a run records: trace, log and tracker -/

theorem shouldCopy_of_mono (t t' : Tracker) (p : Path) (m : Int)
    (hmono : ∀ r, Tracker.find t p = some r → ∃ r', Tracker.find t' p = some r' ∧ r ≤ r')
    (h : shouldCopy t' p m = true) : shouldCopy t p m = true := by
  rw [shouldCopy_eq_true_iff] at h ⊢
  cases ht : Tracker.find t p with
  | none => exact Or.inl rfl
  | some r =>
    obtain ⟨r', hr', hle⟩ := hmono r ht
    rcases h with h | ⟨r'', h, hlt⟩
    · rw [hr'] at h; cases h
    · rw [hr'] at h; cases h
      exact Or.inr ⟨r, rfl, by omega⟩

theorem RunInv.refl (st : State) : RunInv st st where
  mono := fun p r h => ⟨r, h, le_refl r⟩
  ext := ⟨[], [], by simp, by simp, by simp, by simp, by simp⟩

theorem RunInv.trans {a b c : State} (h1 : RunInv a b) (h2 : RunInv b c) : RunInv a c where
  mono := by
    intro p r h
    obtain ⟨r1, hr1, hle1⟩ := h1.mono p r h
    obtain ⟨r2, hr2, hle2⟩ := h2.mono p r1 hr1
    exact ⟨r2, hr2, le_trans hle1 hle2⟩
  ext := by
    obtain ⟨l1, ll1, ht1, hl1, hc1, he1, hk1⟩ := h1.ext
    obtain ⟨l2, ll2, ht2, hl2, hc2, he2, hk2⟩ := h2.ext
    refine ⟨l1 ++ l2, ll1 ++ ll2, by rw [ht2, ht1, List.append_assoc],
      by rw [hl2, hl1, List.append_assoc], ?_, ?_, ?_⟩
    · intro p d hmem
      rcases List.mem_append.1 hmem with h | h
      · obtain ⟨m, hm, hs⟩ := hc1 p d h
        exact ⟨m, List.mem_append_left _ hm, hs⟩
      · obtain ⟨m, hm, hs⟩ := hc2 p d h
        exact ⟨m, List.mem_append_right _ hm,
          shouldCopy_of_mono _ _ p m (fun r hr => h1.mono p r hr) hs⟩
    · intro p m hmem
      rcases List.mem_append.1 hmem with h | h
      · obtain ⟨r, hr, hle⟩ := he1 p m h
        obtain ⟨r2, hr2, hle2⟩ := h2.mono p r hr
        exact ⟨r2, hr2, le_trans hle hle2⟩
      · exact he2 p m h
    · intro p d hmem
      rcases List.mem_append.1 hmem with h | h
      · exact List.mem_append_left _ (hk1 p d h)
      · exact List.mem_append_right _ (hk2 p d h)

/-- A step that leaves the tracker alone and records neither an examination nor
a call of `CopyFile`, and logs no `Copied` line, keeps the invariant. -/
theorem RunInv.of_quiet (st st' : State) (l : List Op) (ll : List LogMsg)
    (ht : st'.lastModifiedTimes = st.lastModifiedTimes)
    (htr : st'.trace = st.trace ++ l) (hlog : st'.log = st.log ++ ll)
    (hl1 : ∀ p d, Op.callCopyFile p d ∉ l) (hl2 : ∀ p m, Op.examine p m ∉ l)
    (hl3 : ∀ p d, LogMsg.copied p d ∉ ll) : RunInv st st' where
  mono := fun p r h => ⟨r, by rw [ht]; exact h, le_refl r⟩
  ext := ⟨l, ll, htr, hlog, fun p d h => absurd h (hl1 p d), fun p m h => absurd h (hl2 p m),
    fun p d h => absurd h (hl3 p d)⟩

theorem copyAndReport_log (env : Env) (st : State) (s d : Path) :
    (copyAndReport env st s d).log = st.log ++ [LogMsg.failedCopy s] ∨
    (copyAndReport env st s d).log = st.log ++ [LogMsg.copied s d] := by
  unfold copyAndReport
  simp only []
  split
  · left; rfl
  · right; rfl

/-- The record and the log that `CopyFile` adds: the call, then filesystem
operations only; and a `Copied` line names the call's own paths. -/
theorem CopyFile_record (env : Env) (st : State) (s d : Path) :
    ∃ l ll, (CopyFile env st s d).trace = st.trace ++ Op.callCopyFile s d :: l ∧
      (CopyFile env st s d).log = st.log ++ ll ∧
      (∀ p q, Op.callCopyFile p q ∉ l) ∧ (∀ p m, Op.examine p m ∉ l) ∧
      (∀ p q, LogMsg.copied p q ∈ ll → p = s ∧ q = d) := by
  unfold CopyFile
  simp only []
  split
  · exact ⟨[Op.mkpath d (mkpath env st.fs d).2], [], by simp, by simp, by simp, by simp, by simp⟩
  · split
    · split
      · exact ⟨[Op.mkpath d.dropLast (mkpath env st.fs d.dropLast).2,
            Op.remove d (removeFile env (mkpath env st.fs d.dropLast).1 d).2],
          [LogMsg.failedRemove d], by simp, by simp, by simp, by simp, by simp⟩
      · refine ⟨[Op.mkpath d.dropLast (mkpath env st.fs d.dropLast).2,
            Op.remove d (removeFile env (mkpath env st.fs d.dropLast).1 d).2,
            Op.copy s d (copyBytes env (removeFile env (mkpath env st.fs d.dropLast).1 d).1 s d).2],
          ?_⟩
        rcases copyAndReport_log env
          (doRemove env (doMkpath env (st.note (Op.callCopyFile s d)) d.dropLast).1 d).1 s d
          with h | h
        · exact ⟨[LogMsg.failedCopy s], by simp, by rw [h]; simp, by simp, by simp, by simp⟩
        · exact ⟨[LogMsg.copied s d], by simp, by rw [h]; simp, by simp, by simp, by simp⟩
    · refine ⟨[Op.mkpath d.dropLast (mkpath env st.fs d.dropLast).2,
          Op.copy s d (copyBytes env (mkpath env st.fs d.dropLast).1 s d).2], ?_⟩
      rcases copyAndReport_log env (doMkpath env (st.note (Op.callCopyFile s d)) d.dropLast).1 s d
        with h | h
      · exact ⟨[LogMsg.failedCopy s], by simp, by rw [h]; simp, by simp, by simp, by simp⟩
      · exact ⟨[LogMsg.copied s d], by simp, by rw [h]; simp, by simp, by simp, by simp⟩

theorem logDetection_log (st : State) (file : String) (p : Path) (m : Int) :
    ∃ ll, (logDetection st file p m).log = st.log ++ ll ∧ ∀ s d, LogMsg.copied s d ∉ ll := by
  unfold logDetection
  split
  · exact ⟨[LogMsg.newFileDetected file], rfl, by simp⟩
  · split
    · exact ⟨[LogMsg.modifiedFileDetected file], rfl, by simp⟩
    · exact ⟨[], by simp, by simp⟩

/-- The loop body of `ProcessDirectory` keeps the invariant of a run. -/
theorem processFile_RunInv (env : Env) (sourceDir destDir : Path) (st : State) (file : String) :
    RunInv st (processFile env sourceDir destDir st file) := by
  cases hs : shouldCopy st.lastModifiedTimes (sourceDir ++ [file])
      (FS.lastModified st.fs (sourceDir ++ [file])) with
  | false =>
    rw [processFile_of_not_shouldCopy env sourceDir destDir st file hs]
    refine ⟨fun p r h => ⟨r, h, le_refl r⟩, [Op.examine (sourceDir ++ [file])
      (FS.lastModified st.fs (sourceDir ++ [file]))], [], rfl, by simp, by simp, ?_, by simp⟩
    intro p m hmem
    simp only [List.mem_singleton, Op.examine.injEq] at hmem
    obtain ⟨hp, hm⟩ := hmem
    subst hp; subst hm
    simp only [note_tracker]
    cases hf : Tracker.find st.lastModifiedTimes (sourceDir ++ [file]) with
    | none =>
      have := (shouldCopy_eq_true_iff st.lastModifiedTimes (sourceDir ++ [file])
        (FS.lastModified st.fs (sourceDir ++ [file]))).2 (Or.inl hf)
      rw [hs] at this; cases this
    | some r =>
      refine ⟨r, rfl, ?_⟩
      by_contra hlt
      have := (shouldCopy_eq_true_iff st.lastModifiedTimes (sourceDir ++ [file])
        (FS.lastModified st.fs (sourceDir ++ [file]))).2 (Or.inr ⟨r, hf, by omega⟩)
      rw [hs] at this; cases this
  | true =>
    have htr := processFile_tracker_of_shouldCopy env sourceDir destDir st file hs
    obtain ⟨ll0, hll0, hno0⟩ := logDetection_log
      (st.note (Op.examine (sourceDir ++ [file]) (FS.lastModified st.fs (sourceDir ++ [file]))))
      file (sourceDir ++ [file]) (FS.lastModified st.fs (sourceDir ++ [file]))
    obtain ⟨l, ll, hl, hlog, hnc, hne, hcp⟩ := CopyFile_record env
      (logDetection (st.note (Op.examine (sourceDir ++ [file])
        (FS.lastModified st.fs (sourceDir ++ [file])))) file (sourceDir ++ [file])
        (FS.lastModified st.fs (sourceDir ++ [file]))) (sourceDir ++ [file]) (destDir ++ [file])
    have htrace : (processFile env sourceDir destDir st file).trace = st.trace ++
        (Op.examine (sourceDir ++ [file]) (FS.lastModified st.fs (sourceDir ++ [file])) ::
          Op.callCopyFile (sourceDir ++ [file]) (destDir ++ [file]) :: l) := by
      unfold processFile
      simp only [note_tracker, note_fs, hs, if_true]
      rw [hl]; simp
    have hlog' : (processFile env sourceDir destDir st file).log = st.log ++ (ll0 ++ ll) := by
      unfold processFile
      simp only [note_tracker, note_fs, hs, if_true]
      rw [hlog, hll0]; simp
    refine ⟨?_, _, _, htrace, hlog', ?_, ?_, ?_⟩
    · intro p r h
      rw [htr, Tracker.find_assign]
      by_cases e : sourceDir ++ [file] = p
      · subst e
        rw [if_pos rfl]
        refine ⟨_, rfl, ?_⟩
        rcases (shouldCopy_eq_true_iff _ _ _).1 hs with h1 | ⟨r1, h1, hlt⟩
        · rw [h] at h1; cases h1
        · rw [h] at h1; cases h1; omega
      · rw [if_neg e]; exact ⟨r, h, le_refl r⟩
    · intro p d hmem
      rcases List.mem_cons.1 hmem with h | hmem
      · cases h
      rcases List.mem_cons.1 hmem with h | hmem
      · cases h
        exact ⟨_, by simp, hs⟩
      · exact absurd hmem (hnc p d)
    · intro p m hmem
      rcases List.mem_cons.1 hmem with h | hmem
      · cases h
        rw [htr, Tracker.find_assign, if_pos rfl]
        exact ⟨_, rfl, le_refl _⟩
      rcases List.mem_cons.1 hmem with h | hmem
      · cases h
      · exact absurd hmem (hne p m)
    · intro p d hmem
      rcases List.mem_append.1 hmem with h | h
      · exact absurd h (hno0 p d)
      · obtain ⟨hp, hd⟩ := hcp p d h
        subst hp; subst hd
        simp

theorem foldl_processFile_RunInv (env : Env) (sourceDir destDir : Path) (files : List String) :
    ∀ st : State, RunInv st (files.foldl (processFile env sourceDir destDir) st) := by
  induction files with
  | nil => intro st; exact RunInv.refl st
  | cons f files ih =>
    intro st
    rw [List.foldl_cons]
    exact RunInv.trans (processFile_RunInv env sourceDir destDir st f) (ih _)

theorem ensureDestDir_RunInv (env : Env) (st : State) (destDir : Path) :
    RunInv st (ensureDestDir env st destDir).1 := by
  unfold ensureDestDir
  split
  · exact RunInv.refl st
  · exact RunInv.of_quiet _ _ [Op.mkpath destDir (mkpath env st.fs destDir).2] [] rfl rfl
      (by simp) (by simp) (by simp) (by simp)

/-- The walk keeps the invariant of a run, whenever it returns. -/
theorem ProcessDirectory_RunInv (env : Env) (fuel : Nat) :
    ∀ (sourceDir destDir : Path) (rel : String) (st st' : State),
      ProcessDirectory env fuel sourceDir destDir rel st = some st' → RunInv st st' := by
  induction fuel with
  | zero => intro _ _ _ _ _ h; simp [ProcessDirectory] at h
  | succ fuel ih =>
    intro sourceDir destDir rel st st' h
    unfold ProcessDirectory at h
    simp only [] at h
    have h0 : RunInv st (st.note (Op.enter sourceDir destDir)) :=
      RunInv.of_quiet _ _ [Op.enter sourceDir destDir] [] rfl rfl (by simp) (by simp) (by simp)
        (by simp)
    have h1 := RunInv.trans h0
      (ensureDestDir_RunInv env (st.note (Op.enter sourceDir destDir)) destDir)
    split at h
    · cases h
      exact RunInv.trans h1 (RunInv.of_quiet _ _ [] [LogMsg.failedCreateDir destDir] rfl (by simp)
        rfl (by simp) (by simp) (by simp))
    · have h2 := RunInv.trans h1 (foldl_processFile_RunInv env sourceDir destDir
        (FS.entryListFiles env.hidden (ensureDestDir env (st.note (Op.enter sourceDir destDir)) destDir).1.fs
          sourceDir) _)
      exact foldlM_inv (fun s => RunInv st s) _
        (fun s y s' hs hf => RunInv.trans hs (ih _ _ _ s s' hf)) _ _ _ h2 h

theorem CopyNewAndChangedFiles_RunInv (env : Env) (fuel : Nat) (w w' : MainWindow)
    (h : CopyNewAndChangedFiles env fuel w = some w') : RunInv w.st w'.st := by
  unfold CopyNewAndChangedFiles at h
  simp only [] at h
  split at h
  · cases h
  · rename_i st hst
    cases h
    exact RunInv.trans (ProcessDirectory_RunInv env fuel _ _ _ _ _ hst)
      (RunInv.of_quiet _ _ [] [LogMsg.completed] rfl (by simp) rfl (by simp) (by simp) (by simp))

/-! ## Two runs in a row -/

/-- Claim C2, amended. Two runs of `CopyNewAndChangedFiles` in a row, the second
starting from the tracker the first left (over any filesystem, in any
environment). A file that the first run examined at modification time `m`, and
that the second run finds no newer than `m`, is not copied by the second run:
`CopyFile` is not called for it and no `Copied` line is logged for it. So when
every file the second run examines was examined by the first at a time at least
as new, the second run calls `CopyFile` for no file and logs no `Copied` line. -/
theorem C2_second_run_skips_examined (env1 env2 : Env) (fuel1 fuel2 : Nat) (ui : Ui)
    (timer : Bool) (fs0 fs1 : FS) (t0 : Tracker) (w1 w2 : MainWindow)
    (h1 : CopyNewAndChangedFiles env1 fuel1
            { ui := ui, checkTimerActive := timer, warnings := [], st := mkState fs0 t0 }
          = some w1)
    (h2 : CopyNewAndChangedFiles env2 fuel2
            { w1 with st := mkState fs1 w1.st.lastModifiedTimes } = some w2) :
    (∀ p m, Op.examine p m ∈ w1.st.trace →
        (∀ m', Op.examine p m' ∈ w2.st.trace → m' ≤ m) →
        (∀ d, Op.callCopyFile p d ∉ w2.st.trace) ∧ (∀ d, LogMsg.copied p d ∉ w2.st.log)) ∧
    ((∀ p m', Op.examine p m' ∈ w2.st.trace → ∃ m, Op.examine p m ∈ w1.st.trace ∧ m' ≤ m) →
        (∀ p d, Op.callCopyFile p d ∉ w2.st.trace) ∧ (∀ p d, LogMsg.copied p d ∉ w2.st.log)) := by
  have I1 := CopyNewAndChangedFiles_RunInv env1 fuel1 _ _ h1
  have I2 := CopyNewAndChangedFiles_RunInv env2 fuel2 _ _ h2
  obtain ⟨l1, ll1, ht1, -, -, he1, -⟩ := I1.ext
  obtain ⟨l2, ll2, ht2, hl2, hc2, -, hk2⟩ := I2.ext
  simp only [mkState, List.nil_append] at ht1 ht2 hl2 hc2
  have core : ∀ p m k, Op.examine p m ∈ l1 → k ≤ m →
      shouldCopy w1.st.lastModifiedTimes p k = true → False := by
    intro p m k hex hle' hs
    obtain ⟨r, hr, hle⟩ := he1 p m hex
    rcases (shouldCopy_eq_true_iff _ _ _).1 hs with h | ⟨r', h, hlt⟩
    · rw [hr] at h; cases h
    · rw [hr] at h; cases h; omega
  rw [ht1, ht2, hl2]
  have key2 : ∀ p d, (∀ d, Op.callCopyFile p d ∉ l2) → LogMsg.copied p d ∉ ll2 :=
    fun p d hno h => hno d (hk2 p d h)
  refine ⟨fun p m hex hsame => ?_, fun hall => ?_⟩
  · have hno : ∀ d, Op.callCopyFile p d ∉ l2 := by
      intro d hcall
      obtain ⟨k, hk, hs⟩ := hc2 p d hcall
      exact core p m k hex (hsame k hk) hs
    exact ⟨hno, fun d => key2 p d hno⟩
  · have hno : ∀ p d, Op.callCopyFile p d ∉ l2 := by
      intro p d hcall
      obtain ⟨k, hk, hs⟩ := hc2 p d hcall
      obtain ⟨m, hm, hle⟩ := hall p k hk
      exact core p m k hm hle hs
    exact ⟨hno, fun p d => key2 p d (hno p)⟩

/-- Claim C2, an instance: `/s/a.txt` is copied by a first run and skipped by a
second run over the filesystem the first one left. -/
theorem C2_second_run_skips_examined_witness :
    CopyNewAndChangedFiles envOk 3
        { ui := windowA.ui, checkTimerActive := false, warnings := [], st := mkState fsA [] }
      = some windowA1 ∧
    CopyNewAndChangedFiles envOk 3
        { windowA1 with st := mkState windowA1.st.fs windowA1.st.lastModifiedTimes }
      = some windowA2 ∧
    Op.examine ["s", "a.txt"] 5 ∈ windowA1.st.trace ∧
    Op.callCopyFile ["s", "a.txt"] ["d", "a.txt"] ∈ windowA1.st.trace ∧
    Op.examine ["s", "a.txt"] 5 ∈ windowA2.st.trace ∧
    (∀ d, Op.callCopyFile ["s", "a.txt"] d ∉ windowA2.st.trace) ∧
    (∀ d, LogMsg.copied ["s", "a.txt"] d ∉ windowA2.st.log) := by
  have t2 : windowA2.st.trace = [Op.enter ["s"] ["d"], Op.examine ["s", "a.txt"] 5] := by
    decide
  have hsame : ∀ k, Op.examine ["s", "a.txt"] k ∈ windowA2.st.trace → k ≤ 5 := by
    intro k hk
    rw [t2] at hk
    simp at hk
    omega
  exact ⟨rfl, rfl, by decide, by decide, by decide,
    (C2_second_run_skips_examined envOk envOk 3 3 windowA.ui false fsA windowA1.st.fs []
      windowA1 windowA2 rfl rfl).1 ["s", "a.txt"] 5 (by decide) hsame⟩

/-- Claim C2 as stated fails: the first run cannot create the destination `/d`
and gives up before looking at any file, leaving the tracker empty; the second
run, now permitted to create `/d`, copies `/s/a.txt` although its modification
time is the same in both runs. -/
theorem C2_counterexample_retry_after_abort :
    (CopyNewAndChangedFiles envNoMkdir 3 windowA).map
        (fun w => (w.st.log, w.st.lastModifiedTimes, FS.lastModified w.st.fs ["s", "a.txt"])) =
      some ([LogMsg.failedCreateDir ["d"], LogMsg.completed], [], 5) ∧
    FS.lastModified windowA.st.fs ["s", "a.txt"] = 5 ∧
    ((CopyNewAndChangedFiles envNoMkdir 3 windowA).bind (fun w1 =>
        CopyNewAndChangedFiles envOk 3
          { w1 with st := mkState w1.st.fs w1.st.lastModifiedTimes })).map
        (fun w => (w.st.trace, w.st.log)) =
      some ([Op.enter ["s"] ["d"], Op.mkpath ["d"] true, Op.examine ["s", "a.txt"] 5,
             Op.callCopyFile ["s", "a.txt"] ["d", "a.txt"], Op.mkpath ["d"] true,
             Op.copy ["s", "a.txt"] ["d", "a.txt"] true],
            [LogMsg.newFileDetected "a.txt", LogMsg.copied ["s", "a.txt"] ["d", "a.txt"],
             LogMsg.completed]) := by
  decide

/-- With the source inside the destination, a second run with nothing changed in
between and the same environment still copies: the first run wrote
`/d/s/a.txt` into the source directory after listing it. -/
theorem second_run_copies_when_source_in_destination :
    ((CopyNewAndChangedFiles envOk 4 windowSourceInDest).bind (fun w1 =>
        CopyNewAndChangedFiles envOk 4 { w1 with st := mkState w1.st.fs w1.st.lastModifiedTimes })).map
        (fun w => w.st.log) =
      some [LogMsg.newFileDetected "a.txt", LogMsg.copied ["d", "s", "a.txt"] ["d", "a.txt"],
            LogMsg.completed] := by
  decide

/-! ## Paths below a directory -/

theorem startsWith_iff (d q : Path) : startsWith d q = true ↔ ∃ t, q = d ++ t := by
  induction d generalizing q with
  | nil => simp [startsWith]
  | cons a d ih =>
    cases q with
    | nil => simp [startsWith]
    | cons b q =>
      simp only [startsWith, Bool.and_eq_true, decide_eq_true_eq, ih, List.cons_append,
        List.cons.injEq]
      constructor
      · rintro ⟨e, t, ht⟩; exact ⟨t, e.symm, ht⟩
      · rintro ⟨t, e, ht⟩; exact ⟨e.symm, t, ht⟩

theorem startsWith_append (d t : Path) : startsWith d (d ++ t) = true :=
  (startsWith_iff d _).2 ⟨t, rfl⟩

theorem startsWith_refl (d : Path) : startsWith d d = true :=
  (startsWith_iff d d).2 ⟨[], by simp⟩

theorem startsWith_trans {a b c : Path} (h1 : startsWith a b = true) (h2 : startsWith b c = true) :
    startsWith a c = true := by
  obtain ⟨t, rfl⟩ := (startsWith_iff _ _).1 h1
  obtain ⟨u, rfl⟩ := (startsWith_iff _ _).1 h2
  exact (startsWith_iff _ _).2 ⟨t ++ u, by simp⟩

/-- Two directories that both lie on the way to one path lie on the way to one another. -/
theorem startsWith_total {a b c : Path} (h1 : startsWith a c = true) (h2 : startsWith b c = true) :
    startsWith a b = true ∨ startsWith b a = true := by
  induction a generalizing b c with
  | nil => left; rfl
  | cons x a ih =>
    cases b with
    | nil => right; rfl
    | cons y b =>
      cases c with
      | nil => simp [startsWith] at h1
      | cons z c =>
        simp only [startsWith, Bool.and_eq_true, decide_eq_true_eq] at h1 h2 ⊢
        obtain ⟨e1, h1⟩ := h1
        obtain ⟨e2, h2⟩ := h2
        subst e1; subst e2
        rcases ih h1 h2 with h | h
        · left; exact ⟨rfl, h⟩
        · right; exact ⟨rfl, h⟩

theorem mem_inits_startsWith (p q : Path) (h : q ∈ p.inits) : startsWith q p = true := by
  rw [List.mem_inits] at h
  obtain ⟨t, ht⟩ := h
  exact (startsWith_iff q p).2 ⟨t, ht.symm⟩

/-- With source and destination not inside one another, no path on the way to or
below the destination lies at or below the source. -/
theorem not_below_source {S D : Path} (hSD : startsWith S D = false)
    (hDS : startsWith D S = false) (q : Path)
    (h : startsWith D q = true ∨ startsWith q D = true) : startsWith S q = false := by
  cases hq : startsWith S q with
  | false => rfl
  | true =>
    rcases h with h | h
    · rcases startsWith_total hq h with h' | h'
      · rw [hSD] at h'; cases h'
      · rw [hDS] at h'; cases h'
    · rw [startsWith_trans hq h] at hSD; cases hSD

/-! ## The part of the filesystem below the source is a function of the store's order -/

theorem FS.below_cons_out (S : Path) (k : Path) (n : Node) (fs : FS)
    (h : startsWith S k = false) : FS.below S ((k, n) :: fs) = FS.below S fs := by
  simp [FS.below, List.filter, h]

theorem FS.below_erase_out (S : Path) (p : Path) (fs : FS) (h : startsWith S p = false) :
    FS.below S (FS.erase fs p) = FS.below S fs := by
  unfold FS.below FS.erase
  rw [List.filter_filter]
  apply List.filter_congr
  intro e _
  by_cases he : e.1 = p
  · rw [he, h]; simp
  · simp [he]

theorem FS.below_insert_out (S : Path) (p : Path) (n : Node) (fs : FS)
    (h : startsWith S p = false) : FS.below S (FS.insert fs p n) = FS.below S fs := by
  unfold FS.insert
  rw [FS.below_cons_out S p n _ h, FS.below_erase_out S p fs h]

theorem FS.below_addDirs_out (S : Path) (qs : List Path) (fs : FS)
    (h : ∀ q ∈ qs, startsWith S q = false) : FS.below S (FS.addDirs fs qs) = FS.below S fs := by
  induction qs generalizing fs with
  | nil => rfl
  | cons a qs ih =>
    unfold FS.addDirs
    have h' : ∀ q ∈ qs, startsWith S q = false := fun q hq => h q (List.mem_cons_of_mem _ hq)
    split
    · exact ih fs h'
    · rw [ih _ h', FS.below_cons_out S a _ _ (h a (List.mem_cons_self _ _))]

theorem FS.get_below (S : Path) (fs : FS) (q : Path) (h : startsWith S q = true) :
    FS.get (FS.below S fs) q = FS.get fs q := by
  induction fs with
  | nil => rfl
  | cons e fs ih =>
    obtain ⟨k, n⟩ := e
    unfold FS.below at ih ⊢
    by_cases hk : startsWith S k = true
    · simp only [List.filter, hk]
      rw [FS.get_cons, FS.get_cons, ih]
    · have hne : k ≠ q := by
        intro e; subst e; exact hk h
      simp only [List.filter, hk]
      rw [FS.get_cons, if_neg hne, ih]

/-! ## The source tree is not written when the trees are apart -/

theorem startsWith_dropLast (d : Path) : startsWith d.dropLast d = true := by
  induction d with
  | nil => rfl
  | cons a d ih =>
    cases d with
    | nil => rfl
    | cons b d => simpa [startsWith, List.dropLast] using ih

theorem mkpath_below (env : Env) (S : Path) (fs : FS) (p : Path)
    (h : ∀ q, startsWith q p = true → startsWith S q = false) :
    FS.below S (mkpath env fs p).1 = FS.below S fs := by
  unfold mkpath
  split
  · rfl
  · split
    · exact FS.below_addDirs_out S _ fs (fun q hq => h q (mem_inits_startsWith p q hq))
    · rfl

theorem removeFile_below (env : Env) (S : Path) (fs : FS) (p : Path)
    (h : startsWith S p = false) : FS.below S (removeFile env fs p).1 = FS.below S fs := by
  unfold removeFile
  split
  · exact FS.below_erase_out S p fs h
  · rfl

theorem copyBytes_below (env : Env) (S : Path) (fs : FS) (s d : Path)
    (h : startsWith S d = false) : FS.below S (copyBytes env fs s d).1 = FS.below S fs := by
  unfold copyBytes
  split
  · split
    · exact FS.below_insert_out S d _ fs h
    · rfl
  · rfl

/-- The paths `CopyFile` can write, all on the way to its destination path, are
outside the source tree when no path on the way to the destination is inside. -/
theorem CopyFile_below (env : Env) (S : Path) (st : State) (s d : Path)
    (h : ∀ q, startsWith q d = true → startsWith S q = false) :
    FS.below S (CopyFile env st s d).fs = FS.below S st.fs := by
  have hd : startsWith S d = false := h d (startsWith_refl d)
  have hdl : ∀ q, startsWith q d.dropLast = true → startsWith S q = false :=
    fun q hq => h q (startsWith_trans hq (startsWith_dropLast d))
  unfold CopyFile
  simp only []
  split
  · simp only [doMkpath_fs, note_fs]
    exact mkpath_below env S st.fs d h
  · split
    · split
      · simp only [LogMessage_fs, doRemove_fs, doMkpath_fs, note_fs]
        rw [removeFile_below env S _ d hd, mkpath_below env S st.fs _ hdl]
      · simp only [copyAndReport_fs, doRemove_fs, doMkpath_fs, note_fs]
        rw [copyBytes_below env S _ s d hd, removeFile_below env S _ d hd,
          mkpath_below env S st.fs _ hdl]
    · simp only [copyAndReport_fs, doMkpath_fs, note_fs]
      rw [copyBytes_below env S _ s d hd, mkpath_below env S st.fs _ hdl]

theorem processFile_below (env : Env) (S : Path) (sourceDir destDir : Path) (st : State)
    (file : String)
    (h : ∀ q, startsWith q (destDir ++ [file]) = true → startsWith S q = false) :
    FS.below S (processFile env sourceDir destDir st file).fs = FS.below S st.fs := by
  unfold processFile
  simp only []
  split
  · simp only []
    rw [CopyFile_below env S _ _ _ h, logDetection_fs, note_fs]
  · rw [logDetection_fs, note_fs]

theorem foldl_processFile_below (env : Env) (S : Path) (sourceDir destDir : Path)
    (h : ∀ f q, startsWith q (destDir ++ [f]) = true → startsWith S q = false)
    (files : List String) :
    ∀ st : State, FS.below S (files.foldl (processFile env sourceDir destDir) st).fs
      = FS.below S st.fs := by
  induction files with
  | nil => intro st; rfl
  | cons f files ih =>
    intro st
    rw [List.foldl_cons, ih, processFile_below env S sourceDir destDir st f (h f)]

theorem ensureDestDir_below (env : Env) (S : Path) (st : State) (destDir : Path)
    (h : ∀ q, startsWith q destDir = true → startsWith S q = false) :
    FS.below S (ensureDestDir env st destDir).1.fs = FS.below S st.fs := by
  unfold ensureDestDir
  split
  · rfl
  · simp only [doMkpath_fs]
    exact mkpath_below env S st.fs destDir h

/-- Source `S` and destination `D` not inside one another: every path on the way
to a path below `D` is outside `S`. -/
theorem apart_of_startsWith {S D : Path} (hSD : startsWith S D = false)
    (hDS : startsWith D S = false) (d : Path) (hd : startsWith D d = true) (q : Path)
    (hq : startsWith q d = true) : startsWith S q = false :=
  not_below_source hSD hDS q (startsWith_total hd hq)

/-- The walk leaves the source tree as it is, when the trees are apart. -/
theorem ProcessDirectory_below (env : Env) {S D : Path} (hSD : startsWith S D = false)
    (hDS : startsWith D S = false) (fuel : Nat) :
    ∀ (sourceDir destDir : Path) (rel : String) (st st' : State),
      startsWith D destDir = true →
      ProcessDirectory env fuel sourceDir destDir rel st = some st' →
      FS.below S st'.fs = FS.below S st.fs := by
  induction fuel with
  | zero => intro _ _ _ _ _ _ h; simp [ProcessDirectory] at h
  | succ fuel ih =>
    intro sourceDir destDir rel st st' hD h
    unfold ProcessDirectory at h
    simp only [] at h
    have h1 : FS.below S (ensureDestDir env (st.note (Op.enter sourceDir destDir)) destDir).1.fs
        = FS.below S st.fs :=
      ensureDestDir_below env S _ destDir (apart_of_startsWith hSD hDS destDir hD)
    split at h
    · cases h; exact h1
    · have h2 := foldl_processFile_below env S sourceDir destDir
        (fun f => apart_of_startsWith hSD hDS (destDir ++ [f])
          (startsWith_trans hD (startsWith_append destDir [f])))
        (FS.entryListFiles env.hidden (ensureDestDir env (st.note (Op.enter sourceDir destDir)) destDir).1.fs
          sourceDir) (ensureDestDir env (st.note (Op.enter sourceDir destDir)) destDir).1
      exact foldlM_inv (fun s => FS.below S s.fs = FS.below S st.fs) _
        (fun s y s' hs hf => by
          rw [← hs]
          exact ih _ _ _ s s' (startsWith_trans hD (startsWith_append destDir [y])) hf)
        _ _ _ (h2.trans h1) h

/-! ## The walk returns when the trees are apart -/

theorem FS.mem_of_below_eq {S : Path} {a b : FS} (h : FS.below S a = FS.below S b)
    (e : Path × Node) (he : e ∈ a) (hS : startsWith S e.1 = true) : e ∈ b := by
  have : e ∈ FS.below S a := by
    unfold FS.below
    exact List.mem_filter.2 ⟨he, hS⟩
  rw [h] at this
  exact (List.mem_filter.1 this).1

theorem FS.length_le_maxDepth (fs : FS) (e : Path × Node) (he : e ∈ fs) :
    e.1.length ≤ FS.maxDepth fs := by
  induction fs with
  | nil => simp at he
  | cons a fs ih =>
    unfold FS.maxDepth
    rcases List.mem_cons.1 he with h | h
    · subst h; exact le_max_left _ _
    · exact le_trans (ih h) (le_max_right _ _)

theorem FS.shallow_of_maxDepth (fs : FS) (d : Path) (n : Nat) (h : FS.maxDepth fs < n) :
    FS.shallow fs d n := by
  intro e he _
  have := FS.length_le_maxDepth fs e he
  omega

theorem foldlM_some {σ α : Type} (inv : σ → Prop) (f : σ → α → Option σ) :
    ∀ (l : List α) (s : σ), inv s →
      (∀ s y, y ∈ l → inv s → ∃ s', f s y = some s' ∧ inv s') →
      ∃ s', l.foldlM f s = some s' ∧ inv s' := by
  intro l
  induction l with
  | nil => intro s hs _; exact ⟨s, rfl, hs⟩
  | cons a l ih =>
    intro s hs hstep
    obtain ⟨s1, hf, hs1⟩ := hstep s a (List.mem_cons_self _ _) hs
    obtain ⟨s2, hf2, hs2⟩ := ih s1 hs1 (fun s y hy => hstep s y (List.mem_cons_of_mem _ hy))
    exact ⟨s2, by rw [List.foldlM_cons, hf]; exact hf2, hs2⟩

/-- The walk returns when source and destination are not inside one another and
the depth bound exceeds the depth of the source tree below the directory. -/
theorem ProcessDirectory_returns (env : Env) {S D : Path} (hSD : startsWith S D = false)
    (hDS : startsWith D S = false) (fuel : Nat) :
    ∀ (sourceDir destDir : Path) (rel : String) (st : State),
      startsWith S sourceDir = true → startsWith D destDir = true → 0 < fuel →
      FS.shallow st.fs sourceDir fuel →
      ∃ st', ProcessDirectory env fuel sourceDir destDir rel st = some st' := by
  induction fuel with
  | zero => intro _ _ _ _ _ _ h; omega
  | succ fuel ih =>
    intro sourceDir destDir rel st hS hD _ hsh
    unfold ProcessDirectory
    simp only []
    have h1 : FS.below S (ensureDestDir env (st.note (Op.enter sourceDir destDir)) destDir).1.fs
        = FS.below S st.fs :=
      ensureDestDir_below env S _ destDir (apart_of_startsWith hSD hDS destDir hD)
    split
    · exact ⟨_, rfl⟩
    · have h2 := (foldl_processFile_below env S sourceDir destDir
        (fun f => apart_of_startsWith hSD hDS (destDir ++ [f])
          (startsWith_trans hD (startsWith_append destDir [f])))
        (FS.entryListFiles env.hidden (ensureDestDir env (st.note (Op.enter sourceDir destDir)) destDir).1.fs
          sourceDir) (ensureDestDir env (st.note (Op.enter sourceDir destDir)) destDir).1).trans h1
      generalize List.foldl (processFile env sourceDir destDir)
        (ensureDestDir env (st.note (Op.enter sourceDir destDir)) destDir).1
        (FS.entryListFiles env.hidden (ensureDestDir env (st.note (Op.enter sourceDir destDir)) destDir).1.fs
          sourceDir) = st1 at h2 ⊢
      obtain ⟨s', hs', -⟩ := foldlM_some (fun s => FS.below S s.fs = FS.below S st.fs)
        (fun s dir => ProcessDirectory env fuel (sourceDir ++ [dir]) (destDir ++ [dir]) dir s)
        (FS.entryListDirs env.hidden st1.fs sourceDir) st1 h2 (by
          intro s y hy hs
          have hmem := ((FS.mem_entryListDirs _ _ sourceDir y).1 hy).2
          have hSy : startsWith S (sourceDir ++ [y]) = true :=
            startsWith_trans hS (startsWith_append sourceDir [y])
          have hmem0 : (sourceDir ++ [y], Node.dir) ∈ st.fs := FS.mem_of_below_eq h2 _ hmem hSy
          have hlen := hsh _ hmem0 (startsWith_append sourceDir [y])
          simp only [List.length_append, List.length_singleton] at hlen
          have hsh' : FS.shallow s.fs (sourceDir ++ [y]) fuel := by
            intro e he hst
            have he0 : e ∈ st.fs := FS.mem_of_below_eq hs e he (startsWith_trans hSy hst)
            have := hsh e he0 (startsWith_trans (startsWith_append sourceDir [y]) hst)
            simp only [List.length_append, List.length_singleton]
            omega
          obtain ⟨s', hs'⟩ := ih (sourceDir ++ [y]) (destDir ++ [y]) y s hSy
            (startsWith_trans hD (startsWith_append destDir [y])) (by omega) hsh'
          refine ⟨s', hs', ?_⟩
          rw [← hs]
          exact ProcessDirectory_below env hSD hDS fuel _ _ _ s s'
            (startsWith_trans hD (startsWith_append destDir [y])) hs')
      exact ⟨s', hs'⟩

/-! ## What the filesystem operations keep and what they write -/

theorem mkpath_get_some (env : Env) (fs : FS) (p q : Path) (n : Node)
    (h : FS.get fs q = some n) : FS.get (mkpath env fs p).1 q = some n := by
  unfold mkpath
  split
  · exact h
  · split
    · simp only []
      rw [FS.get_addDirs, h]
    · exact h

theorem removeFile_get_ne (env : Env) (fs : FS) (p q : Path) (h : q ≠ p) :
    FS.get (removeFile env fs p).1 q = FS.get fs q := by
  unfold removeFile
  split
  · simp only []
    rw [FS.get_erase, if_neg h]
  · rfl

theorem copyBytes_get_ne (env : Env) (fs : FS) (s d q : Path) (h : q ≠ d) :
    FS.get (copyBytes env fs s d).1 q = FS.get fs q := by
  unfold copyBytes
  split
  · split
    · simp only []
      rw [FS.get_insert, if_neg (fun e => h e.symm)]
    · rfl
  · rfl

/-- A successful `QFile::copy` leaves at the target a file with the bytes of the source. -/
theorem copyBytes_ok (env : Env) (fs : FS) (s d : Path) (m : Int) (b : List Nat)
    (hs : FS.get fs s = some (Node.file m b)) (hok : (copyBytes env fs s d).2 = true) :
    FS.get (copyBytes env fs s d).1 d = some (Node.file env.stamp b) := by
  unfold copyBytes at hok ⊢
  rw [hs] at hok ⊢
  simp only [] at hok ⊢
  split
  · simp only []
    rw [FS.get_insert, if_pos rfl]
  · rename_i h
    rw [if_neg h] at hok
    cases hok

/-- The method `CopyFile` keeps every node that is not at its destination path. -/
theorem CopyFile_get_other (env : Env) (st : State) (s d q : Path) (n : Node) (hq : q ≠ d)
    (h : FS.get st.fs q = some n) : FS.get (CopyFile env st s d).fs q = some n := by
  unfold CopyFile
  simp only []
  split
  · simp only [doMkpath_fs, note_fs]
    exact mkpath_get_some env _ _ _ _ h
  · split
    · split
      · simp only [LogMessage_fs, doRemove_fs, doMkpath_fs, note_fs]
        rw [removeFile_get_ne env _ d q hq]
        exact mkpath_get_some env _ _ _ _ h
      · simp only [copyAndReport_fs, doRemove_fs, doMkpath_fs, note_fs]
        rw [copyBytes_get_ne env _ s d q hq, removeFile_get_ne env _ d q hq]
        exact mkpath_get_some env _ _ _ _ h
    · simp only [copyAndReport_fs, doMkpath_fs, note_fs]
      rw [copyBytes_get_ne env _ s d q hq]
      exact mkpath_get_some env _ _ _ _ h

/-- When none of its operations fails, `CopyFile` on a regular file leaves at the
destination path a file with the bytes of the source. -/
theorem CopyFile_ok (env : Env) (st : State) (s d : Path) (m : Int) (b : List Nat)
    (hs : FS.get st.fs s = some (Node.file m b)) (hsd : s ≠ d)
    (hok : ∀ op ∈ (CopyFile env st s d).trace, Op.failed op = false) :
    FS.get (CopyFile env st s d).fs d = some (Node.file env.stamp b) := by
  have hnd : FS.isDir (st.note (Op.callCopyFile s d)).fs s = false := by
    simp [FS.isDir, hs]
  have hs1 : FS.get (mkpath env st.fs d.dropLast).1 s = some (Node.file m b) :=
    mkpath_get_some env _ _ _ _ hs
  unfold CopyFile at hok ⊢
  simp only [hnd, Bool.false_eq_true, if_false] at hok ⊢
  split
  · rename_i hex
    rw [if_pos hex] at hok
    split
    · rename_i hrm
      rw [if_pos hrm] at hok
      have := hok (Op.remove d (removeFile env (mkpath env st.fs d.dropLast).1 d).2) (by simp)
      simp only [Op.failed] at this
      simp only [doRemove_ok, doMkpath_fs, note_fs] at hrm
      rw [hrm] at this; cases this
    · rename_i hrm
      rw [if_neg hrm] at hok
      have hc := hok (Op.copy s d
        (copyBytes env (removeFile env (mkpath env st.fs d.dropLast).1 d).1 s d).2) (by simp)
      simp only [Op.failed, Bool.not_eq_false'] at hc
      simp only [copyAndReport_fs, doRemove_fs, doMkpath_fs, note_fs]
      refine copyBytes_ok env _ s d m b ?_ hc
      rw [removeFile_get_ne env _ d s hsd]
      exact hs1
  · rename_i hex
    rw [if_neg hex] at hok
    have hc := hok (Op.copy s d (copyBytes env (mkpath env st.fs d.dropLast).1 s d).2) (by simp)
    simp only [Op.failed, Bool.not_eq_false'] at hc
    simp only [copyAndReport_fs, doMkpath_fs, note_fs]
    exact copyBytes_ok env _ s d m b hs1 hc

/-! ## One file of the loop -/

theorem FS.lastModified_of_get (fs : FS) (p : Path) (m : Int) (b : List Nat)
    (h : FS.get fs p = some (Node.file m b)) : FS.lastModified fs p = m := by
  simp [FS.lastModified, h]

theorem processFile_tracker_ne (env : Env) (sourceDir destDir : Path) (st : State)
    (file : String) (q : Path) (hq : q ≠ sourceDir ++ [file]) :
    Tracker.find (processFile env sourceDir destDir st file).lastModifiedTimes q =
      Tracker.find st.lastModifiedTimes q := by
  cases hs : shouldCopy st.lastModifiedTimes (sourceDir ++ [file])
      (FS.lastModified st.fs (sourceDir ++ [file])) with
  | false => rw [processFile_of_not_shouldCopy env sourceDir destDir st file hs]; rfl
  | true =>
    rw [processFile_tracker_of_shouldCopy env sourceDir destDir st file hs, Tracker.find_assign,
      if_neg (fun e => hq e.symm)]

/-- A selected regular file whose copy meets no failure is at the destination
path after the loop body, with the bytes of the source. -/
theorem processFile_good (env : Env) (sourceDir destDir : Path) (st : State) (file : String)
    (m : Int) (b : List Nat)
    (hs : FS.get st.fs (sourceDir ++ [file]) = some (Node.file m b))
    (hne : sourceDir ++ [file] ≠ destDir ++ [file])
    (hsel : shouldCopy st.lastModifiedTimes (sourceDir ++ [file]) m = true)
    (hok : ∀ op ∈ (processFile env sourceDir destDir st file).trace, Op.failed op = false) :
    FS.get (processFile env sourceDir destDir st file).fs (destDir ++ [file]) =
      some (Node.file env.stamp b) := by
  have hm := FS.lastModified_of_get st.fs _ m b hs
  unfold processFile at hok ⊢
  simp only [note_tracker, note_fs, hm, hsel, if_true] at hok ⊢
  exact CopyFile_ok env _ _ _ m b (by rw [logDetection_fs, note_fs]; exact hs) hne hok

/-- The loop body keeps every node that is not at the file's destination path. -/
theorem processFile_keep (env : Env) (sourceDir destDir : Path) (st : State) (file : String)
    (q : Path) (n : Node) (hq : q ≠ destDir ++ [file]) (h : FS.get st.fs q = some n) :
    FS.get (processFile env sourceDir destDir st file).fs q = some n := by
  unfold processFile
  simp only []
  split
  · simp only []
    exact CopyFile_get_other env _ _ _ q n hq (by rw [logDetection_fs, note_fs]; exact h)
  · rw [logDetection_fs, note_fs]; exact h

/-- A destination file that already has the bytes of its source keeps them
through the loop body for that file, when no operation fails. -/
theorem processFile_keep_good (env : Env) (sourceDir destDir : Path) (st : State)
    (file : String) (m : Int) (b : List Nat)
    (hs : FS.get st.fs (sourceDir ++ [file]) = some (Node.file m b))
    (hne : sourceDir ++ [file] ≠ destDir ++ [file])
    (hd : FS.get st.fs (destDir ++ [file]) = some (Node.file env.stamp b))
    (hok : ∀ op ∈ (processFile env sourceDir destDir st file).trace, Op.failed op = false) :
    FS.get (processFile env sourceDir destDir st file).fs (destDir ++ [file]) =
      some (Node.file env.stamp b) := by
  cases hsel : shouldCopy st.lastModifiedTimes (sourceDir ++ [file]) m with
  | true => exact processFile_good env sourceDir destDir st file m b hs hne hsel hok
  | false =>
    have hm := FS.lastModified_of_get st.fs _ m b hs
    rw [processFile_of_not_shouldCopy env sourceDir destDir st file (by rw [hm]; exact hsel)]
    exact hd

/-- Two paths at the same place below source and destination are different when
the trees are apart. -/
theorem source_ne_dest {S D : Path} (hSD : startsWith S D = false)
    (hDS : startsWith D S = false) (t u : Path) : S ++ t ≠ D ++ u := by
  intro e
  have h1 : startsWith S (D ++ u) = true := by rw [← e]; exact startsWith_append S t
  rw [not_below_source hSD hDS (D ++ u) (Or.inl (startsWith_append D u))] at h1
  cases h1

/-- The record of a run only grows: if no operation failed by the end, none had
failed before. -/
theorem RunInv.noFail {st st' : State} (h : RunInv st st')
    (hok : ∀ op ∈ st'.trace, Op.failed op = false) : ∀ op ∈ st.trace, Op.failed op = false := by
  obtain ⟨l, ll, ht, -⟩ := h.ext
  intro op hop
  exact hok op (by rw [ht]; exact List.mem_append_left _ hop)

/-! ## The loop over the files of a directory -/

theorem FS.get_eq_of_below_eq {S : Path} {a b : FS} (h : FS.below S a = FS.below S b)
    (q : Path) (hq : startsWith S q = true) : FS.get a q = FS.get b q := by
  rw [← FS.get_below S a q hq, ← FS.get_below S b q hq, h]

theorem shouldCopy_congr (t t' : Tracker) (p : Path) (m : Int)
    (h : Tracker.find t p = Tracker.find t' p) : shouldCopy t p m = shouldCopy t' p m := by
  unfold shouldCopy Tracker.contains
  rw [h]

/-- Through the loop over files, a destination file that has the bytes of its
source keeps them, when no operation fails. -/
theorem foldl_processFile_keep_good (env : Env) (S : Path) (sourceDir destDir : Path)
    (hapart : ∀ f q, startsWith q (destDir ++ [f]) = true → startsWith S q = false)
    (hne : ∀ f, sourceDir ++ [f] ≠ destDir ++ [f])
    (ps pd : Path) (m : Int) (b : List Nat) (hps : startsWith S ps = true)
    (hdet : ∀ f, pd = destDir ++ [f] → ps = sourceDir ++ [f])
    (files : List String) :
    ∀ st : State, FS.get st.fs ps = some (Node.file m b) →
      FS.get st.fs pd = some (Node.file env.stamp b) →
      (∀ op ∈ (files.foldl (processFile env sourceDir destDir) st).trace, Op.failed op = false) →
      FS.get (files.foldl (processFile env sourceDir destDir) st).fs pd =
        some (Node.file env.stamp b) := by
  induction files with
  | nil => intro st _ hd _; exact hd
  | cons g files ih =>
    intro st hs hd hok
    rw [List.foldl_cons] at hok ⊢
    have hok1 := (foldl_processFile_RunInv env sourceDir destDir files
      (processFile env sourceDir destDir st g)).noFail hok
    have hs1 : FS.get (processFile env sourceDir destDir st g).fs ps = some (Node.file m b) := by
      rw [FS.get_eq_of_below_eq (processFile_below env S sourceDir destDir st g (hapart g)) ps hps]
      exact hs
    refine ih _ hs1 ?_ hok
    by_cases e : pd = destDir ++ [g]
    · have e' := hdet g e
      subst e; subst e'
      exact processFile_keep_good env sourceDir destDir st g m b hs (hne g) hd hok1
    · exact processFile_keep env sourceDir destDir st g pd _ e hd

/-- The loop over files copies every listed regular file that is selected, when
no operation fails. -/
theorem foldl_processFile_cover (env : Env) (S : Path) (sourceDir destDir : Path)
    (hS : startsWith S sourceDir = true)
    (hapart : ∀ f q, startsWith q (destDir ++ [f]) = true → startsWith S q = false)
    (hne : ∀ f, sourceDir ++ [f] ≠ destDir ++ [f])
    (f : String) (m : Int) (b : List Nat) (files : List String) :
    ∀ st : State, f ∈ files → FS.get st.fs (sourceDir ++ [f]) = some (Node.file m b) →
      shouldCopy st.lastModifiedTimes (sourceDir ++ [f]) m = true →
      (∀ op ∈ (files.foldl (processFile env sourceDir destDir) st).trace, Op.failed op = false) →
      FS.get (files.foldl (processFile env sourceDir destDir) st).fs (destDir ++ [f]) =
        some (Node.file env.stamp b) := by
  have hSf : startsWith S (sourceDir ++ [f]) = true :=
    startsWith_trans hS (startsWith_append sourceDir [f])
  induction files with
  | nil => intro st hf; simp at hf
  | cons g files ih =>
    intro st hf hs hsel hok
    rw [List.foldl_cons] at hok ⊢
    have hok1 := (foldl_processFile_RunInv env sourceDir destDir files
      (processFile env sourceDir destDir st g)).noFail hok
    have hs1 : FS.get (processFile env sourceDir destDir st g).fs (sourceDir ++ [f]) =
        some (Node.file m b) := by
      rw [FS.get_eq_of_below_eq (processFile_below env S sourceDir destDir st g (hapart g)) _ hSf]
      exact hs
    by_cases e : f = g
    · subst e
      have hgood := processFile_good env sourceDir destDir st f m b hs (hne f) hsel hok1
      exact foldl_processFile_keep_good env S sourceDir destDir hapart hne _ _ m b hSf
        (fun f' e' => by rw [List.append_cancel_left e']) files _ hs1 hgood hok
    · have hf' : f ∈ files := by
        rcases List.mem_cons.1 hf with h | h
        · exact absurd h e
        · exact h
      refine ih _ hf' hs1 ?_ hok
      rw [shouldCopy_congr _ st.lastModifiedTimes _ m
        (processFile_tracker_ne env sourceDir destDir st g _ (by
          intro e'
          exact e (by simpa using List.append_cancel_left e')))]
      exact hsel

theorem foldl_processFile_tracker_ne (env : Env) (sourceDir destDir : Path) (q : Path)
    (hq : ∀ f, q ≠ sourceDir ++ [f]) (files : List String) :
    ∀ st : State, Tracker.find (files.foldl (processFile env sourceDir destDir) st).lastModifiedTimes q
      = Tracker.find st.lastModifiedTimes q := by
  induction files with
  | nil => intro st; rfl
  | cons g files ih =>
    intro st
    rw [List.foldl_cons, ih, processFile_tracker_ne env sourceDir destDir st g q (hq g)]

/-! ## The walk: what it keeps -/

theorem ensureDestDir_tracker (env : Env) (st : State) (destDir : Path) :
    (ensureDestDir env st destDir).1.lastModifiedTimes = st.lastModifiedTimes := by
  unfold ensureDestDir
  split <;> rfl

theorem ensureDestDir_get_some (env : Env) (st : State) (destDir q : Path) (n : Node)
    (h : FS.get st.fs q = some n) : FS.get (ensureDestDir env st destDir).1.fs q = some n := by
  unfold ensureDestDir
  split
  · exact h
  · simp only [doMkpath_fs]
    exact mkpath_get_some env _ _ _ _ h

/-- When the guard of `ProcessDirectory` fires, a failed `mkpath` is on record. -/
theorem ensureDestDir_failed (env : Env) (st : State) (destDir : Path)
    (h : (ensureDestDir env st destDir).2 = false) :
    Op.mkpath destDir false ∈ (ensureDestDir env st destDir).1.trace := by
  unfold ensureDestDir at h ⊢
  split
  · rename_i hd; rw [if_pos hd] at h; cases h
  · rename_i hd
    rw [if_neg hd] at h
    simp only [doMkpath_ok] at h
    simp [h]

theorem foldlM_back {σ α : Type} (ok : σ → Prop) (f : σ → α → Option σ)
    (hback : ∀ s y s', f s y = some s' → ok s' → ok s) :
    ∀ (l : List α) (s s' : σ), l.foldlM f s = some s' → ok s' → ok s := by
  intro l
  induction l with
  | nil => intro s s' h hs; simp at h; subst h; exact hs
  | cons a l ih =>
    intro s s' h hs
    rw [List.foldlM_cons] at h
    cases hfa : f s a with
    | none => rw [hfa] at h; simp at h
    | some s1 =>
      rw [hfa] at h
      exact hback s a s1 hfa (ih s1 s' h hs)

theorem foldlM_keep {σ α : Type} (ok good : σ → Prop) (f : σ → α → Option σ)
    (hback : ∀ s y s', f s y = some s' → ok s' → ok s)
    (hstep : ∀ s y s', f s y = some s' → ok s' → good s → good s') :
    ∀ (l : List α) (s s' : σ), l.foldlM f s = some s' → ok s' → good s → good s' := by
  intro l
  induction l with
  | nil => intro s s' h _ hg; simp at h; subst h; exact hg
  | cons a l ih =>
    intro s s' h hs hg
    rw [List.foldlM_cons] at h
    cases hfa : f s a with
    | none => rw [hfa] at h; simp at h
    | some s1 =>
      rw [hfa] at h
      exact ih s1 s' h hs (hstep s a s1 hfa (foldlM_back ok f hback l s1 s' h hs) hg)

/-- The walk of a directory writes tracker entries only for paths below it. -/
theorem ProcessDirectory_tracker_frame (env : Env) (fuel : Nat) :
    ∀ (sourceDir destDir : Path) (rel : String) (st st' : State) (q : Path),
      startsWith sourceDir q = false →
      ProcessDirectory env fuel sourceDir destDir rel st = some st' →
      Tracker.find st'.lastModifiedTimes q = Tracker.find st.lastModifiedTimes q := by
  induction fuel with
  | zero => intro _ _ _ _ _ _ _ h; simp [ProcessDirectory] at h
  | succ fuel ih =>
    intro sourceDir destDir rel st st' q hq h
    unfold ProcessDirectory at h
    simp only [] at h
    have h0 : Tracker.find
        (ensureDestDir env (st.note (Op.enter sourceDir destDir)) destDir).1.lastModifiedTimes q
        = Tracker.find st.lastModifiedTimes q := by
      rw [ensureDestDir_tracker]; rfl
    split at h
    · cases h; exact h0
    · have hqf : ∀ f, q ≠ sourceDir ++ [f] := by
        intro f e
        rw [e, startsWith_append] at hq
        cases hq
      have h1 := (foldl_processFile_tracker_ne env sourceDir destDir q hqf
        (FS.entryListFiles env.hidden (ensureDestDir env (st.note (Op.enter sourceDir destDir)) destDir).1.fs
          sourceDir) (ensureDestDir env (st.note (Op.enter sourceDir destDir)) destDir).1).trans h0
      exact foldlM_inv
        (fun s => Tracker.find s.lastModifiedTimes q = Tracker.find st.lastModifiedTimes q) _
        (fun s y s' hs hf => by
          have hqy : startsWith (sourceDir ++ [y]) q = false := by
            cases hc : startsWith (sourceDir ++ [y]) q with
            | false => rfl
            | true =>
              rw [startsWith_trans (startsWith_append sourceDir [y]) hc] at hq
              cases hq
          exact (ih _ _ _ s s' q hqy hf).trans hs)
        _ _ _ h1 h

/-- The walk keeps the bytes of a destination file that has the bytes of the
source file at the same relative path, when the trees are apart and no
operation fails. -/
theorem ProcessDirectory_keep_good (env : Env) {S D : Path} (hSD : startsWith S D = false)
    (hDS : startsWith D S = false) (fuel : Nat) :
    ∀ (r : Path) (rel : String) (st st' : State),
      ProcessDirectory env fuel (S ++ r) (D ++ r) rel st = some st' →
      (∀ op ∈ st'.trace, Op.failed op = false) →
      ∀ (t : Path) (m : Int) (b : List Nat), FS.get st.fs (S ++ t) = some (Node.file m b) →
        FS.get st.fs (D ++ t) = some (Node.file env.stamp b) →
        FS.get st'.fs (D ++ t) = some (Node.file env.stamp b) := by
  induction fuel with
  | zero => intro _ _ _ _ h; simp [ProcessDirectory] at h
  | succ fuel ih =>
    intro r rel st st' h hok t m b hs hd
    unfold ProcessDirectory at h
    simp only [] at h
    have hs0 := ensureDestDir_get_some env (st.note (Op.enter (S ++ r) (D ++ r))) (D ++ r)
      (S ++ t) _ hs
    have hd0 := ensureDestDir_get_some env (st.note (Op.enter (S ++ r) (D ++ r))) (D ++ r)
      (D ++ t) _ hd
    split at h
    · cases h; exact hd0
    · generalize ensureDestDir env (st.note (Op.enter (S ++ r) (D ++ r))) (D ++ r) = e0
        at h hs0 hd0
      have hD : startsWith D (D ++ r) = true := startsWith_append D r
      have hapart : ∀ f q, startsWith q (D ++ r ++ [f]) = true → startsWith S q = false :=
        fun f => apart_of_startsWith hSD hDS (D ++ r ++ [f])
          (startsWith_trans hD (startsWith_append (D ++ r) [f]))
      have hne : ∀ f, S ++ r ++ [f] ≠ D ++ r ++ [f] := by
        intro f
        rw [List.append_assoc, List.append_assoc]
        exact source_ne_dest hSD hDS _ _
      have hback : ∀ (s : State) (y : String) (s' : State),
          ProcessDirectory env fuel (S ++ r ++ [y]) (D ++ r ++ [y]) y s = some s' →
          (∀ op ∈ s'.trace, Op.failed op = false) → (∀ op ∈ s.trace, Op.failed op = false) :=
        fun s y s' hf hs' => (ProcessDirectory_RunInv env fuel _ _ _ s s' hf).noFail hs'
      have hok1 := foldlM_back (fun s : State => ∀ op ∈ s.trace, Op.failed op = false) _ hback
        _ _ _ h hok
      have hbelow1 := foldl_processFile_below env S (S ++ r) (D ++ r) hapart
        (FS.entryListFiles env.hidden e0.1.fs (S ++ r)) e0.1
      have hd1 := foldl_processFile_keep_good env S (S ++ r) (D ++ r) hapart hne (S ++ t) (D ++ t)
        m b (startsWith_append S t)
        (fun f e => by
          rw [List.append_assoc] at e
          rw [List.append_assoc, List.append_cancel_left e])
        (FS.entryListFiles env.hidden e0.1.fs (S ++ r)) e0.1 hs0 hd0 hok1
      have hs1 : FS.get (List.foldl (processFile env (S ++ r) (D ++ r)) e0.1
          (FS.entryListFiles env.hidden e0.1.fs (S ++ r))).fs (S ++ t) = some (Node.file m b) := by
        rw [FS.get_eq_of_below_eq hbelow1 _ (startsWith_append S t)]
        exact hs0
      generalize List.foldl (processFile env (S ++ r) (D ++ r)) e0.1
        (FS.entryListFiles env.hidden e0.1.fs (S ++ r)) = st1 at h hd1 hs1 hok1
      have := foldlM_keep (fun s : State => ∀ op ∈ s.trace, Op.failed op = false)
        (fun s : State => FS.get s.fs (S ++ t) = some (Node.file m b) ∧
          FS.get s.fs (D ++ t) = some (Node.file env.stamp b))
        (fun s dir => ProcessDirectory env fuel (S ++ r ++ [dir]) (D ++ r ++ [dir]) dir s)
        hback
        (fun s y s' hf hs' hg => by
          beta_reduce at hf hs' hg ⊢
          have hf' := hf
          rw [List.append_assoc, List.append_assoc] at hf'
          refine ⟨?_, ih (r ++ [y]) y s s' hf' hs' t m b hg.1 hg.2⟩
          rw [FS.get_eq_of_below_eq (ProcessDirectory_below env hSD hDS fuel _ _ _ s s'
            (startsWith_append D (r ++ [y])) hf') _ (startsWith_append S t)]
          exact hg.1)
        (FS.entryListDirs env.hidden st1.fs (S ++ r)) st1 st' h hok ⟨hs1, hd1⟩
      exact this.2

/-! ## The walk: what it copies -/

theorem FS.closedBelow_of_below_eq {S : Path} {a b : FS} (h : FS.below S a = FS.below S b)
    (hb : FS.closedBelow S b) : FS.closedBelow S a := by
  intro t x u n hu hg
  have e1 : startsWith S (S ++ t ++ x :: u) = true := by
    rw [List.append_assoc]; exact startsWith_append S _
  have e2 : startsWith S (S ++ t ++ [x]) = true := by
    rw [List.append_assoc]; exact startsWith_append S _
  rw [FS.get_eq_of_below_eq h _ e1] at hg
  rw [FS.get_eq_of_below_eq h _ e2]
  exact hb t x u n hu hg

theorem FS.closedBelow_of_wellFormed (S : Path) (fs : FS) (h : FS.wellFormed fs = true) :
    FS.closedBelow S fs := by
  intro t x u n hu hg
  have hmem := FS.mem_of_get fs _ n hg
  unfold FS.wellFormed at h
  rw [List.all_eq_true] at h
  have h1 := h _ hmem
  simp only [List.all_eq_true, Bool.or_eq_true, decide_eq_true_eq] at h1
  have hin : S ++ t ++ [x] ∈ (S ++ t ++ x :: u).inits := by
    rw [List.mem_inits]
    exact ⟨u, by simp⟩
  rcases h1 _ hin with e | e
  · exfalso
    have := congrArg List.length e
    simp only [List.length_append, List.length_cons, List.length_singleton,
      List.length_nil] at this
    cases u with
    | nil => exact hu rfl
    | cons c u => simp at this
  · unfold FS.isDir at e
    cases hq : FS.get fs (S ++ t ++ [x]) with
    | none => rw [hq] at e; cases e
    | some n' =>
      cases n' with
      | file m b => rw [hq] at e; cases e
      | dir => rfl

theorem startsWith_append_cons (a : Path) (y x : String) (u : Path)
    (h : startsWith (a ++ [y]) (a ++ x :: u) = true) : y = x := by
  induction a with
  | nil => simpa [startsWith] using h
  | cons c a ih =>
    simp only [List.cons_append, startsWith, decide_True, Bool.true_and] at h
    exact ih h

/-- Through the walks of a list of subdirectories, a destination file that has
the bytes of its source keeps them. -/
theorem foldlM_ProcessDirectory_keep_good (env : Env) {S D : Path}
    (hSD : startsWith S D = false) (hDS : startsWith D S = false) (fuel : Nat) (r : Path)
    (t : Path) (m : Int) (b : List Nat) (l : List String) (s s' : State)
    (h : l.foldlM (fun s dir => ProcessDirectory env fuel (S ++ r ++ [dir]) (D ++ r ++ [dir]) dir s)
      s = some s')
    (hok : ∀ op ∈ s'.trace, Op.failed op = false)
    (hs : FS.get s.fs (S ++ t) = some (Node.file m b))
    (hd : FS.get s.fs (D ++ t) = some (Node.file env.stamp b)) :
    FS.get s'.fs (D ++ t) = some (Node.file env.stamp b) := by
  have := foldlM_keep (fun s : State => ∀ op ∈ s.trace, Op.failed op = false)
    (fun s : State => FS.get s.fs (S ++ t) = some (Node.file m b) ∧
      FS.get s.fs (D ++ t) = some (Node.file env.stamp b))
    (fun s dir => ProcessDirectory env fuel (S ++ r ++ [dir]) (D ++ r ++ [dir]) dir s)
    (fun s y s' hf hs' => (ProcessDirectory_RunInv env fuel _ _ _ s s' hf).noFail hs')
    (fun s y s' hf hs' hg => by
      beta_reduce at hf hs' hg ⊢
      have hf' := hf
      rw [List.append_assoc, List.append_assoc] at hf'
      refine ⟨?_, ProcessDirectory_keep_good env hSD hDS fuel (r ++ [y]) y s s' hf' hs' t m b
        hg.1 hg.2⟩
      rw [FS.get_eq_of_below_eq (ProcessDirectory_below env hSD hDS fuel _ _ _ s s'
        (startsWith_append D (r ++ [y])) hf') _ (startsWith_append S t)]
      exact hg.1)
    l s s' h hok ⟨hs, hd⟩
  exact this.2

/-- The walk copies every selected regular file below its source directory that
is not hidden and in no hidden directory, when the trees are apart, the source
tree is closed under parents, and no operation fails. -/
theorem ProcessDirectory_cover (env : Env) {S D : Path} (hSD : startsWith S D = false)
    (hDS : startsWith D S = false) (fuel : Nat) :
    ∀ (r : Path) (rel : String) (st st' : State),
      ProcessDirectory env fuel (S ++ r) (D ++ r) rel st = some st' →
      (∀ op ∈ st'.trace, Op.failed op = false) → FS.closedBelow S st.fs →
      ∀ (u : Path) (m : Int) (b : List Nat), u ≠ [] → (∀ c ∈ u, env.hidden c = false) →
        FS.get st.fs (S ++ r ++ u) = some (Node.file m b) →
        shouldCopy st.lastModifiedTimes (S ++ r ++ u) m = true →
        FS.get st'.fs (D ++ r ++ u) = some (Node.file env.stamp b) := by
  induction fuel with
  | zero => intro _ _ _ _ h; simp [ProcessDirectory] at h
  | succ fuel ih =>
    intro r rel st st' h hok hclosed u m b hu hvis hs hsel
    unfold ProcessDirectory at h
    simp only [] at h
    have hD : startsWith D (D ++ r) = true := startsWith_append D r
    have hSr : startsWith S (S ++ r) = true := startsWith_append S r
    have hSu : startsWith S (S ++ r ++ u) = true := by
      rw [List.append_assoc]; exact startsWith_append S _
    have hb0 : FS.below S (ensureDestDir env (st.note (Op.enter (S ++ r) (D ++ r))) (D ++ r)).1.fs
        = FS.below S st.fs :=
      ensureDestDir_below env S _ (D ++ r) (apart_of_startsWith hSD hDS (D ++ r) hD)
    have ht0 : (ensureDestDir env (st.note (Op.enter (S ++ r) (D ++ r))) (D ++ r)).1.lastModifiedTimes
        = st.lastModifiedTimes := by
      rw [ensureDestDir_tracker]; rfl
    split at h
    · rename_i hfail
      cases h
      have hmem := ensureDestDir_failed env (st.note (Op.enter (S ++ r) (D ++ r))) (D ++ r)
        (by simpa using hfail)
      have := hok _ (by simpa using hmem)
      simp [Op.failed] at this
    · generalize ensureDestDir env (st.note (Op.enter (S ++ r) (D ++ r))) (D ++ r) = e0
        at h hb0 ht0
      have hapart : ∀ f q, startsWith q (D ++ r ++ [f]) = true → startsWith S q = false :=
        fun f => apart_of_startsWith hSD hDS (D ++ r ++ [f])
          (startsWith_trans hD (startsWith_append (D ++ r) [f]))
      have hne : ∀ f, S ++ r ++ [f] ≠ D ++ r ++ [f] := by
        intro f
        rw [List.append_assoc, List.append_assoc]
        exact source_ne_dest hSD hDS _ _
      have hback : ∀ (s : State) (y : String) (s' : State),
          ProcessDirectory env fuel (S ++ r ++ [y]) (D ++ r ++ [y]) y s = some s' →
          (∀ op ∈ s'.trace, Op.failed op = false) → (∀ op ∈ s.trace, Op.failed op = false) :=
        fun s y s' hf hs' => (ProcessDirectory_RunInv env fuel _ _ _ s s' hf).noFail hs'
      have hok1 := foldlM_back (fun s : State => ∀ op ∈ s.trace, Op.failed op = false) _ hback
        _ _ _ h hok
      have hb1 := (foldl_processFile_below env S (S ++ r) (D ++ r) hapart
        (FS.entryListFiles env.hidden e0.1.fs (S ++ r)) e0.1).trans hb0
      have hs0 : FS.get e0.1.fs (S ++ r ++ u) = some (Node.file m b) := by
        rw [FS.get_eq_of_below_eq hb0 _ hSu]; exact hs
      cases u with
      | nil => exact absurd rfl hu
      | cons x u =>
        cases u with
        | nil =>
          -- a file of this directory: copied by the loop over files, kept afterwards
          have hmem : x ∈ FS.entryListFiles env.hidden e0.1.fs (S ++ r) :=
            (FS.mem_entryListFiles _ _ _ _).2
              ⟨hvis x (List.mem_cons_self _ _), m, b, FS.mem_of_get _ _ _ hs0⟩
          have hg1 := foldl_processFile_cover env S (S ++ r) (D ++ r) hSr hapart hne x m b
            (FS.entryListFiles env.hidden e0.1.fs (S ++ r)) e0.1 hmem hs0 (by rw [ht0]; exact hsel) hok1
          have hs1 : FS.get (List.foldl (processFile env (S ++ r) (D ++ r)) e0.1
              (FS.entryListFiles env.hidden e0.1.fs (S ++ r))).fs (S ++ r ++ [x]) = some (Node.file m b) := by
            rw [FS.get_eq_of_below_eq hb1 _ hSu]; exact hs
          rw [List.append_assoc] at hs1 hg1 ⊢
          exact foldlM_ProcessDirectory_keep_good env hSD hDS fuel r (r ++ [x]) m b _ _ _ h hok
            hs1 hg1
        | cons y u =>
          -- a file further down: its subdirectory is listed, its walk copies the file
          have hdir : FS.get st.fs (S ++ r ++ [x]) = some Node.dir :=
            hclosed r x (y :: u) _ (by simp) hs
          have hSx : startsWith S (S ++ r ++ [x]) = true := by
            rw [List.append_assoc]; exact startsWith_append S _
          have ht1 : Tracker.find (List.foldl (processFile env (S ++ r) (D ++ r)) e0.1
              (FS.entryListFiles env.hidden e0.1.fs (S ++ r))).lastModifiedTimes (S ++ r ++ x :: y :: u)
              = Tracker.find st.lastModifiedTimes (S ++ r ++ x :: y :: u) := by
            rw [foldl_processFile_tracker_ne env (S ++ r) (D ++ r) _ (by
              intro f e
              have := congrArg List.length e
              simp at this), ht0]
          generalize List.foldl (processFile env (S ++ r) (D ++ r)) e0.1
            (FS.entryListFiles env.hidden e0.1.fs (S ++ r)) = st1 at h hb1 ht1 hok1
          have hmem : x ∈ FS.entryListDirs env.hidden st1.fs (S ++ r) := by
            rw [FS.mem_entryListDirs]
            refine ⟨hvis x (List.mem_cons_self _ _), ?_⟩
            apply FS.mem_of_get
            rw [FS.get_eq_of_below_eq hb1 _ hSx]
            exact hdir
          clear hok1
          generalize FS.entryListDirs env.hidden st1.fs (S ++ r) = l at h hmem
          induction l generalizing st1 with
          | nil => simp at hmem
          | cons z l ihl =>
            rw [List.foldlM_cons] at h
            cases hfz : ProcessDirectory env fuel (S ++ r ++ [z]) (D ++ r ++ [z]) z st1 with
            | none => rw [hfz] at h; simp at h
            | some s1 =>
              rw [hfz] at h
              simp only [Option.some_bind, Option.bind_eq_bind] at h
              have hok1 := foldlM_back (fun s : State => ∀ op ∈ s.trace, Op.failed op = false) _
                hback _ _ _ h hok
              have hfz' := hfz
              rw [List.append_assoc, List.append_assoc] at hfz'
              have hbs1 : FS.below S s1.fs = FS.below S st.fs :=
                (ProcessDirectory_below env hSD hDS fuel _ _ _ st1 s1
                  (startsWith_append D (r ++ [z])) hfz').trans hb1
              by_cases e : x = z
              · subst e
                have hgood := ih (r ++ [x]) x st1 s1 hfz' hok1
                  (FS.closedBelow_of_below_eq hb1 hclosed) (y :: u) m b (by simp)
                  (fun c hc => hvis c (List.mem_cons_of_mem _ hc))
                  (by
                    rw [FS.get_eq_of_below_eq hb1 _ (by
                      rw [List.append_assoc]; exact startsWith_append S _)]
                    simpa using hs)
                  (by
                    rw [shouldCopy_congr _ st.lastModifiedTimes _ m (by simpa using ht1)]
                    simpa using hsel)
                have hs1 : FS.get s1.fs (S ++ (r ++ x :: y :: u)) = some (Node.file m b) := by
                  rw [FS.get_eq_of_below_eq hbs1 _ (startsWith_append S _)]
                  simpa using hs
                have := foldlM_ProcessDirectory_keep_good env hSD hDS fuel r (r ++ x :: y :: u)
                  m b l s1 st' h hok hs1 (by simpa using hgood)
                simpa using this
              · have hmem' : x ∈ l := by
                  rcases List.mem_cons.1 hmem with h' | h'
                  · exact absurd h' e
                  · exact h'
                have hfr : startsWith (S ++ r ++ [z]) (S ++ r ++ x :: y :: u) = false := by
                  cases hc : startsWith (S ++ r ++ [z]) (S ++ r ++ x :: y :: u) with
                  | false => rfl
                  | true => exact absurd (startsWith_append_cons _ _ _ _ hc).symm e
                exact ihl s1 hbs1
                  ((ProcessDirectory_tracker_frame env fuel _ _ _ st1 s1 _ hfr hfz).trans ht1)
                  h hmem'

/-! ## A whole run -/

/-- Claim C4, amended. Source directory `S` and destination directory `D` not
inside one another, a well-formed filesystem, any tracker. `ProcessDirectory`
returns as soon as the depth bound exceeds the depth of the filesystem; and if
no filesystem operation of the run failed, every regular file below `S` that the
tracker did not already hold with its current or a newer modification time (so
every file that is new to the tracker), and that is not hidden or inside a
hidden directory, has afterwards a regular file at the same relative path below
`D` with the same bytes. -/
theorem C4_selected_files_are_mirrored (env : Env) (S D : Path) (rel : String) (fs0 : FS)
    (t0 : Tracker) (fuel : Nat)
    (hSD : startsWith S D = false) (hDS : startsWith D S = false)
    (hwf : FS.wellFormed fs0 = true) (hfuel : FS.maxDepth fs0 < fuel) :
    ∃ st', ProcessDirectory env fuel S D rel (mkState fs0 t0) = some st' ∧
      ((∀ op ∈ st'.trace, Op.failed op = false) →
        ∀ (u : Path) (m : Int) (b : List Nat), u ≠ [] → (∀ c ∈ u, env.hidden c = false) →
          FS.get fs0 (S ++ u) = some (Node.file m b) →
          shouldCopy t0 (S ++ u) m = true →
          FS.get st'.fs (D ++ u) = some (Node.file env.stamp b)) := by
  obtain ⟨st', hst'⟩ := ProcessDirectory_returns env hSD hDS fuel S D rel (mkState fs0 t0)
    (startsWith_refl S) (startsWith_refl D) (by omega)
    (FS.shallow_of_maxDepth fs0 S fuel hfuel)
  refine ⟨st', hst', ?_⟩
  intro hok u m b hu hvis hs hsel
  have h' : ProcessDirectory env fuel (S ++ []) (D ++ []) rel (mkState fs0 t0) = some st' := by
    simpa using hst'
  have := ProcessDirectory_cover env hSD hDS fuel [] rel (mkState fs0 t0) st' h' hok
    (FS.closedBelow_of_wellFormed S fs0 hwf) u m b hu hvis (by simpa using hs) (by simpa using hsel)
  simpa using this

/-- Claim C4, an instance: the tree `/s` with a file and a subdirectory holding a
file is mirrored into the empty directory `/d`; no operation fails. -/
theorem C4_selected_files_are_mirrored_witness :
    startsWith ["s"] ["d"] = false ∧ startsWith ["d"] ["s"] = false ∧
    FS.wellFormed fsTree = true ∧ FS.maxDepth fsTree < 4 ∧
    (ProcessDirectory envOk 4 ["s"] ["d"] "/s" (mkState fsTree [])).map
        (fun st => (st.trace.all (fun op => !Op.failed op), FS.get st.fs ["d", "a.txt"],
          FS.get st.fs ["d", "sub", "b.txt"])) =
      some (true, some (Node.file 100 [1, 2]), some (Node.file 100 [3])) ∧
    ∃ st', ProcessDirectory envOk 4 ["s"] ["d"] "/s" (mkState fsTree []) = some st' ∧
      ((∀ op ∈ st'.trace, Op.failed op = false) →
        ∀ (u : Path) (m : Int) (b : List Nat), u ≠ [] → (∀ c ∈ u, envOk.hidden c = false) →
          FS.get fsTree (["s"] ++ u) = some (Node.file m b) →
          shouldCopy [] (["s"] ++ u) m = true →
          FS.get st'.fs (["d"] ++ u) = some (Node.file envOk.stamp b)) :=
  ⟨by decide, by decide, by decide, by decide, by decide,
    C4_selected_files_are_mirrored envOk ["s"] ["d"] "/s" fsTree [] 4 (by decide) (by decide)
      (by decide) (by decide)⟩

/-- Claim C4 as stated fails. A first run in which the system refuses the byte
copy records `/s/a.txt` in the tracker all the same. The next run, with every
operation permitted, examines the file, does not select it and attempts no
operation; none fails; and `/d/a.txt` does not exist afterwards. -/
theorem C4_counterexample_recorded_file_not_mirrored :
    (CopyNewAndChangedFiles envNoCopy 3 windowA).map
        (fun w => (w.st.lastModifiedTimes, FS.get w.st.fs ["d", "a.txt"], FS.isDir w.st.fs ["d"])) =
      some ([(["s", "a.txt"], 5)], none, true) ∧
    ((CopyNewAndChangedFiles envNoCopy 3 windowA).bind (fun w1 =>
        CopyNewAndChangedFiles envOk 3
          { w1 with st := mkState w1.st.fs w1.st.lastModifiedTimes })).map
        (fun w => (w.st.trace, FS.get w.st.fs ["s", "a.txt"], FS.get w.st.fs ["d", "a.txt"])) =
      some ([Op.enter ["s"] ["d"], Op.examine ["s", "a.txt"] 5],
            some (Node.file 5 [1, 2]), none) := by
  decide

/-- A hidden file is not listed by the walk, so it is never examined or copied. -/
theorem hidden_file_not_mirrored :
    (ProcessDirectory envOk 3 ["s"] ["d"] "/s" (mkState fsHidden [])).map
        (fun st => (st.trace, FS.get st.fs ["d", ".cfg"])) =
      some ([Op.enter ["s"] ["d"]], none) := by
  decide

/-! ## Destination files without a source file -/

theorem foldl_processFile_keep (env : Env) (sourceDir destDir : Path) (q : Path) (n : Node)
    (files : List String) (hq : ∀ g ∈ files, q ≠ destDir ++ [g]) :
    ∀ st : State, FS.get st.fs q = some n →
      FS.get (files.foldl (processFile env sourceDir destDir) st).fs q = some n := by
  induction files with
  | nil => intro st h; exact h
  | cons g files ih =>
    intro st h
    rw [List.foldl_cons]
    exact ih (fun g' hg' => hq g' (List.mem_cons_of_mem _ hg')) _
      (processFile_keep env sourceDir destDir st g q n (hq g (List.mem_cons_self _ _)) h)

/-- With the trees apart, the walk does not touch a node of the destination tree
at a relative path where the source tree has no regular file. -/
theorem ProcessDirectory_keeps_unmatched (env : Env) {S D : Path}
    (hSD : startsWith S D = false) (hDS : startsWith D S = false) (fuel : Nat) :
    ∀ (r : Path) (rel : String) (st st' : State),
      ProcessDirectory env fuel (S ++ r) (D ++ r) rel st = some st' →
      ∀ (u : Path) (n : Node), (∀ m b, (S ++ u, Node.file m b) ∉ st.fs) →
        FS.get st.fs (D ++ u) = some n → FS.get st'.fs (D ++ u) = some n := by
  induction fuel with
  | zero => intro _ _ _ _ h; simp [ProcessDirectory] at h
  | succ fuel ih =>
    intro r rel st st' h u n hno hd
    unfold ProcessDirectory at h
    simp only [] at h
    have hD : startsWith D (D ++ r) = true := startsWith_append D r
    have hb0 : FS.below S (ensureDestDir env (st.note (Op.enter (S ++ r) (D ++ r))) (D ++ r)).1.fs
        = FS.below S st.fs :=
      ensureDestDir_below env S _ (D ++ r) (apart_of_startsWith hSD hDS (D ++ r) hD)
    have hd0 := ensureDestDir_get_some env (st.note (Op.enter (S ++ r) (D ++ r))) (D ++ r)
      (D ++ u) _ hd
    split at h
    · cases h; exact hd0
    · generalize ensureDestDir env (st.note (Op.enter (S ++ r) (D ++ r))) (D ++ r) = e0
        at h hb0 hd0
      have hapart : ∀ f q, startsWith q (D ++ r ++ [f]) = true → startsWith S q = false :=
        fun f => apart_of_startsWith hSD hDS (D ++ r ++ [f])
          (startsWith_trans hD (startsWith_append (D ++ r) [f]))
      have hb1 := (foldl_processFile_below env S (S ++ r) (D ++ r) hapart
        (FS.entryListFiles env.hidden e0.1.fs (S ++ r)) e0.1).trans hb0
      have hd1 := foldl_processFile_keep env (S ++ r) (D ++ r) (D ++ u) n
        (FS.entryListFiles env.hidden e0.1.fs (S ++ r)) (by
          intro g hg e
          obtain ⟨-, m, b, hmem⟩ := (FS.mem_entryListFiles _ _ _ _).1 hg
          have hu : u = r ++ [g] := by
            rw [List.append_assoc] at e
            exact List.append_cancel_left e
          have hmem0 := FS.mem_of_below_eq hb0 _ hmem (by
            show startsWith S (S ++ r ++ [g]) = true
            rw [List.append_assoc]; exact startsWith_append S _)
          apply hno m b
          rw [hu, ← List.append_assoc]
          exact hmem0) e0.1 hd0
      generalize List.foldl (processFile env (S ++ r) (D ++ r)) e0.1
        (FS.entryListFiles env.hidden e0.1.fs (S ++ r)) = st1 at h hb1 hd1
      have := foldlM_inv
        (fun s : State => FS.below S s.fs = FS.below S st.fs ∧ FS.get s.fs (D ++ u) = some n)
        (fun s dir => ProcessDirectory env fuel (S ++ r ++ [dir]) (D ++ r ++ [dir]) dir s)
        (fun s y s' hs hf => by
          beta_reduce at hs hf ⊢
          have hf' := hf
          rw [List.append_assoc, List.append_assoc] at hf'
          refine ⟨(ProcessDirectory_below env hSD hDS fuel _ _ _ s s'
            (startsWith_append D (r ++ [y])) hf').trans hs.1, ?_⟩
          refine ih (r ++ [y]) y s s' hf' u n ?_ hs.2
          intro m b hmem
          exact hno m b (FS.mem_of_below_eq hs.1 _ hmem (startsWith_append S u)))
        (FS.entryListDirs env.hidden st1.fs (S ++ r)) st1 st' ⟨hb1, hd1⟩ h
      exact this.2

/-- The start button with an empty path field only shows the warning: no timer,
no filesystem operation, no change of the engine's state. -/
theorem OnStartButtonClicked_empty (env : Env) (w : MainWindow)
    (h : (w.ui.sourceLineEdit.isEmpty || w.ui.destinationLineEdit.isEmpty) = true) :
    OnStartButtonClicked env w =
      { w with warnings := w.warnings ++ ["Please enter both source and destination paths"] } := by
  unfold OnStartButtonClicked
  simp only [h, if_true]

/-- With source and destination paths different, `CopyFile` keeps the source node. -/
theorem CopyFile_keeps_source (env : Env) (st : State) (s d : Path) (n : Node) (hsd : s ≠ d)
    (h : FS.get st.fs s = some n) : FS.get (CopyFile env st s d).fs s = some n :=
  CopyFile_get_other env st s d s n hsd h

end FileSync
